import Mathlib

/-!
Shallow embedding of the `fileSystem` package (hierarchical key-value store
of an early etcd): the node tree, path handling, the ACL layer and the public
FileSystem operations (Get, Create, CreateDir, Update, TestAndSet, Delete),
translated from `file_system.go` and `acl.go`.  Go pointer mutation is
rendered as state passing: every operation maps a `FileSystem` value to a new
`FileSystem` value together with an `Except`-style result.  Machine integers
(uint64 index/term) are modelled as `Nat`: the source never performs
arithmetic on them, only assignment and comparison, so no overflow arises.

`node.go` (Node construction, Write, Add, Remove, Expire) is not part of the
given sources; those few operations are modelled from the spec, each marked
`Modelled from the spec:` in its doc comment.  Everything else follows the
source functions line by line.
-/

namespace EtcdFs

/-- Expiration instants.  Go uses `time.Time` with the zero value `Permanent`
meaning "never expires"; we model an abstract instant and keep `permanent`
as a distinguished value, since the source only ever compares expire times
against `Permanent`. -/
inductive ETime where
  | permanent : ETime
  | instant : Nat → ETime
deriving DecidableEq, Repr

/-- Error codes of the etcd error taxonomy (package `etcdErr`).  The spec's
names map as: 100 EKeyNotFound, 101 ECompareFailed (`EcodeTestFailed` in the
source), 102 ENodeExists (`EcodeNodeExist`), 104 ENotFile, 105 ENotDir,
106 EDirNotEmpty, 107 EPermissionDenied. -/
inductive Ecode where
  | keyNotFound | testFailed | nodeExist | notFile | notDir | dirNotEmpty | permissionDenied
deriving DecidableEq, Repr

/-- An etcd error value: a code plus the `cause` string passed to
`etcdErr.NewError`. -/
structure EtcdError where
  errorCode : Ecode
  cause : String
deriving DecidableEq, Repr

/-- Result of a fallible operation, standing for Go's `(value, error)` pair. -/
abbrev Res (α : Type) := Except EtcdError α

/-- Whether a result is a success (`err == nil` in Go). -/
def resOk {α : Type} : Res α → Bool
  | .ok _ => true
  | .error _ => false

/-- A tree node.  Fields follow the Go `Node` struct: Path, Value, ACL,
CreatedIndex/CreatedTerm, ModifiedIndex/ModifiedTerm, ExpireTime and the
children map (modelled as an association list; Go map iteration order is
unspecified and no claim depends on it).  `isDir` stands for the file/dir
kind; `expirers` counts the live Expirer timers armed for this node
(`go n.Expire()` arms one, a send on `stopExpire` cancels one) — the parent
back-pointer of the source is dropped, the containment relation itself
carries that information. -/
inductive Node where
  | node (isDir : Bool) (path value acl : String)
      (createdIndex createdTerm modifiedIndex modifiedTerm : Nat)
      (expireTime : ETime) (expirers : Nat)
      (children : List (String × Node))

namespace Node

def isDir : Node → Bool
  | .node d _ _ _ _ _ _ _ _ _ _ => d

def path : Node → String
  | .node _ p _ _ _ _ _ _ _ _ _ => p

def value : Node → String
  | .node _ _ v _ _ _ _ _ _ _ _ => v

def acl : Node → String
  | .node _ _ _ a _ _ _ _ _ _ _ => a

def createdIndex : Node → Nat
  | .node _ _ _ _ ci _ _ _ _ _ _ => ci

def createdTerm : Node → Nat
  | .node _ _ _ _ _ ct _ _ _ _ _ => ct

def modifiedIndex : Node → Nat
  | .node _ _ _ _ _ _ mi _ _ _ _ => mi

def modifiedTerm : Node → Nat
  | .node _ _ _ _ _ _ _ mt _ _ _ => mt

def expireTime : Node → ETime
  | .node _ _ _ _ _ _ _ _ e _ _ => e

def expirers : Node → Nat
  | .node _ _ _ _ _ _ _ _ _ x _ => x

def children : Node → List (String × Node)
  | .node _ _ _ _ _ _ _ _ _ _ ch => ch

end Node

/-- Look a child name up in a children list (Go `parent.Children[name]`). -/
def lookupChild : List (String × Node) → String → Option Node
  | [], _ => none
  | (k, v) :: rest, name => if k = name then some v else lookupChild rest name

/-- Insert-or-replace a child binding (Go `parent.Children[name] = n`). -/
def setChildList : List (String × Node) → String → Node → List (String × Node)
  | [], name, n => [(name, n)]
  | (k, v) :: rest, name, n =>
      if k = name then (k, n) :: rest else (k, v) :: setChildList rest name n

/-- Delete a child binding (Go `delete(parent.Children, name)`). -/
def delChildList : List (String × Node) → String → List (String × Node)
  | [], _ => []
  | (k, v) :: rest, name => if k = name then rest else (k, v) :: delChildList rest name

namespace Node

def getChild (n : Node) (name : String) : Option Node :=
  lookupChild n.children name

def setChild : Node → String → Node → Node
  | .node d p v a ci ct mi mt e x ch, name, c => .node d p v a ci ct mi mt e x (setChildList ch name c)

def delChild : Node → String → Node
  | .node d p v a ci ct mi mt e x ch, name => .node d p v a ci ct mi mt e x (delChildList ch name)

def setAcl : Node → String → Node
  | .node d p v _ ci ct mi mt e x ch, a => .node d p v a ci ct mi mt e x ch

/-- Arm one more Expirer for this node (the effect of `go n.Expire()`). -/
def incExpirers : Node → Node
  | .node d p v a ci ct mi mt e x ch => .node d p v a ci ct mi mt e (x + 1) ch

/-- Cancel one Expirer of this node (the effect of `n.stopExpire <- true`). -/
def decExpirers : Node → Node
  | .node d p v a ci ct mi mt e x ch => .node d p v a ci ct mi mt e (x - 1) ch

def setExpireTime : Node → ETime → Node
  | .node d p v a ci ct mi mt _ x ch, e => .node d p v a ci ct mi mt e x ch

end Node

/-! ### Path handling

The Go code uses `path.Clean`, `path.Join` and `path.Split`.  These are
translated below; the operations always present `path.Clean` with a rooted
argument (`"/" + nodePath`). -/

/-- Splitting a character list at every `/` (the behaviour of Go
`strings.Split(s, "/")`, whose separator here is always the single slash).
Written by structural recursion so that concrete paths evaluate inside the
kernel. -/
def splitSlashChars : List Char → List (List Char)
  | [] => [[]]
  | c :: cs =>
      if c = '/' then [] :: splitSlashChars cs
      else
        match splitSlashChars cs with
        | [] => [[c]]
        | g :: gs => (c :: g) :: gs

/-- Go `strings.Split(s, "/")`. -/
def splitSlash (s : String) : List String := (splitSlashChars s.data).map String.mk

/-- Whether a string starts with the given character. -/
def strHeadIs (c : Char) (s : String) : Bool :=
  match s.data with
  | [] => false
  | d :: _ => d = c

/-- One step of Go `path.Clean`'s component resolution: drop empty and `.`
segments, let `..` pop the previous segment (at the root, a leading `..` is
dropped; in a relative path it is kept). -/
def cleanStep (rooted : Bool) (acc : List String) (c : String) : List String :=
  if c = "" ∨ c = "." then acc
  else if c = ".." then
    if acc ≠ [] ∧ acc.getLastD "" ≠ ".." then acc.dropLast
    else if rooted then acc else acc ++ [".."]
  else acc ++ [c]

/-- Go `path.Clean`. -/
def goClean (p : String) : String :=
  let rooted := strHeadIs '/' p
  let out := (splitSlash p).foldl (cleanStep rooted) []
  if rooted then
    (if out = [] then "/" else "/" ++ String.intercalate "/" out)
  else
    (if out = [] then "." else String.intercalate "/" out)

/-- Go `path.Join`: skip leading empty elements, join the rest with `/` and
clean the result. -/
def goPathJoin (elems : List String) : String :=
  match elems.dropWhile (· = "") with
  | [] => ""
  | l => goClean (String.intercalate "/" l)

/-- Two-argument join, Go `path.Join(a, b)`. -/
def join2 (a b : String) : String := goPathJoin [a, b]

/-- `pathCleaning` of the source: `path.Clean` followed by stripping one
trailing `/` — which only `Clean`'s root result `/` has, so the canonical
form of the root is the empty string. -/
def pathCleaning (nodePath : String) : String :=
  let p := goClean nodePath
  if p.data.getLastD ' ' = '/' then String.mk p.data.dropLast else p

/-- The path every public operation works with: `pathCleaning("/" + nodePath)`. -/
def cleanOp (nodePath : String) : String := pathCleaning ("/" ++ nodePath)

/-- The component list the source's `walk` iterates over:
`strings.Split(nodePath, "/")` from index 1 on. -/
def comps (nodePath : String) : List String := (splitSlash nodePath).drop 1

/-- The base name of Go `path.Split`: everything after the final `/`. -/
def goSplitBase (p : String) : String := (splitSlash p).getLastD ""

/-! ### Events -/

/-- Event kinds (the source's `Get`, `Create`, `Update`, `Delete`,
`TestAndSet`, `Expire` action constants). -/
inductive Action where
  | get | create | update | delete | testAndSet | expire
deriving DecidableEq, Repr

/-- A key/value pair of a directory listing, with nested listings for
recursive reads. -/
inductive KVPair where
  | mk (key value : String) (dir : Bool) (kvpairs : List KVPair)

def KVPair.key : KVPair → String
  | .mk k _ _ _ => k

/-- An event returned by an operation.  Fields follow the Go `Event` struct;
the wall-clock `TTL` seconds field is omitted (it reads `time.Now()`, which
has no place in the functional model — `expiration` carries the instant
itself). -/
structure Event where
  action : Action
  key : String
  dir : Bool := false
  prevValue : String := ""
  value : String := ""
  kvpairs : List KVPair := []
  expiration : Option ETime := none
  index : Nat
  term : Nat

/-- `newEvent(action, key, index, term)` of the source. -/
def newEvent (a : Action) (key : String) (index term : Nat) : Event :=
  { action := a, key := key, index := index, term := term }

/-! ### The FileSystem state

The watcher hub and the event history of the source only consume events
(`notify` fans an already-built event out to watcher channels); they never
touch the tree, the index or the term, and no claim concerns them, so the
state keeps the tree root and the (Index, Term) pair. -/

structure FileSystem where
  root : Node
  index : Nat
  term : Nat

/-! ### Node constructors and primitive node operations

`node.go` is not among the given sources; the following are modelled from
the spec (§3 data model, §4.3–§4.6). -/

/-- Modelled from the spec: `newFile` of the missing `node.go`.  §3: a file
node records path, value, the ACL name handed down by its parent, created
and modified (index, term) — equal at creation — and its expire time; no
Expirer is armed at construction (arming is the caller's separate
`go n.Expire()` step). -/
def newFile (nodePath v : String) (ci ct : Nat) (aclName : String) (e : ETime) : Node :=
  .node false nodePath v aclName ci ct ci ct e 0 []

/-- Modelled from the spec: `newDir` of the missing `node.go`.  Same fields
as `newFile` with the directory kind, no value and an empty children map. -/
def newDir (nodePath : String) (ci ct : Nat) (aclName : String) (e : ETime) : Node :=
  .node true nodePath "" aclName ci ct ci ct e 0 []

/-- Modelled from the spec: `Node.Write` of the missing `node.go`.  §4.4 on a
file target: "if `value` is non-empty, replace it; always update
`modified_index`, `modified_term`".  Only ever invoked on file nodes (both
call sites guard on `IsDir`). -/
def nodeWrite (n : Node) (v : String) (index term : Nat) : Node :=
  match n with
  | .node d p oldv a ci ct _ _ e x ch =>
      .node d p (if v ≠ "" then v else oldv) a ci ct index term e x ch

/-- Modelled from the spec: `Node.IsHidden` of the missing `node.go`.
Glossary: "a node whose last path segment starts with `_`". -/
def Node.isHidden (n : Node) : Bool := strHeadIs '_' (goSplitBase n.path)

/-- Modelled from the spec: `Node.Add` of the missing `node.go`.  Adds a
child under its base name; fails `ENotFile` on a file receiver and
`ENodeExists` when the name is taken (§4.3 surfaces both through Create). -/
def nodeAdd (d n : Node) : Res Node :=
  if !d.isDir then .error ⟨.notFile, d.path⟩
  else
    match d.getChild (goSplitBase n.path) with
    | some _ => .error ⟨.nodeExist, n.path⟩
    | none => .ok (d.setChild (goSplitBase n.path) n)

/-! ### Tree walking -/

/-- The source's `walk`, iterating a walk function over the path components
(`strings.Split(nodePath, "/")` from index 1 on); an empty component ends
the walk at the current node. -/
def walkAux (f : Node → String → Res Node) : Node → List String → Res Node
  | curr, [] => .ok curr
  | curr, c :: cs =>
      if c = "" then .ok curr
      else
        match f curr c with
        | .error e => .error e
        | .ok n => walkAux f n cs

/-- The walk function of `InternalGet`: fail `ENotDir` when the current node
is a file, `EKeyNotFound` when the child is missing. -/
def getWalkFunc (parent : Node) (name : String) : Res Node :=
  if !parent.isDir then .error ⟨.notDir, parent.path⟩
  else
    match parent.getChild name with
    | some child => .ok child
    | none => .error ⟨.keyNotFound, join2 parent.path name⟩

/-- `fs.walk(nodePath, walkFunc)` with the `InternalGet` walk function. -/
def walkPath (root : Node) (nodePath : String) : Res Node :=
  walkAux getWalkFunc root (comps nodePath)

/-- `InternalGet`: records the operation's (index, term) on the FileSystem,
then resolves the path against the tree. -/
def InternalGet (fs : FileSystem) (nodePath : String) (index term : Nat) :
    FileSystem × Res Node :=
  ({ fs with index := index, term := term }, walkPath fs.root nodePath)

/-- Replace the node at the given components by `f` of it, the functional
rendering of mutating a node reached through a successful walk; like `walk`,
an empty component stops at the current node, and a missing path leaves the
tree unchanged (never reached: callers mutate only after a successful get). -/
def modifyAt : Node → List String → (Node → Node) → Node
  | curr, [], f => f curr
  | curr, c :: cs, f =>
      if c = "" then f curr
      else
        match curr.getChild c with
        | some sub => curr.setChild c (modifyAt sub cs f)
        | none => curr

/-- Walk to the parent of the last component and delete that last binding —
the detach step of `Node.Remove`. -/
def removeChildAt : Node → List String → Node
  | curr, [] => curr
  | curr, [c] => curr.delChild c
  | curr, c :: cs =>
      match curr.getChild c with
      | some sub => curr.setChild c (removeChildAt sub cs)
      | none => curr

/-- Modelled from the spec: `Node.Remove` of the missing `node.go` (§4.6).
A directory needs `recursive` (a non-recursive delete of a non-empty
directory fails); removal detaches the node — with its whole subtree, and
with it every Expirer armed below it — from its parent; the root is never
deleted (§3 invariants), so removal at the root components is the identity. -/
def nodeRemove (root : Node) (cs : List String) (n : Node) (recursive : Bool) : Res Node :=
  if n.isDir ∧ ¬recursive ∧ ¬n.children.isEmpty then .error ⟨.dirNotEmpty, n.path⟩
  else .ok (removeChildAt root cs)

/-- Pure observation of the node sitting at a component chain: follow the
children maps, no directory checks, no early stop (the component lists of
cleaned paths have no empty segments). -/
def nodeAt : Node → List String → Option Node
  | n, [] => some n
  | n, c :: cs =>
      match n.getChild c with
      | some m => nodeAt m cs
      | none => none

/-! ### The ACL layer (`acl.go`) -/

/-- `getUser()` of the source: unconditionally the user name `admin`. -/
def getUser : String := "admin"

/-- `getUserByCertSubj()` of the older ACL file: unconditionally `test`. -/
def getUserByCertSubj : String := "test"

/-- The loop body of `checkPerm`, explicit in the user it checks for: for
every permission character an internal get of `/ACL/<name>/<char>/<user>`;
any failed lookup yields `EPermissionDenied` with the whole requested
permission string as cause. -/
def checkPermLoop (fs : FileSystem) (aclName user perm : String) : List Char → Res Unit
  | [] => .ok ()
  | c :: cs =>
      match (InternalGet fs (goPathJoin ["/ACL", aclName, c.toString, user]) fs.index fs.term).2 with
      | .error _ => .error ⟨.permissionDenied, perm⟩
      | .ok _ => checkPermLoop fs aclName user perm cs

/-- `checkPerm(aclName, perm)` of the source: the user is always
`getUser()`. -/
def checkPerm (fs : FileSystem) (aclName perm : String) : Res Unit :=
  checkPermLoop fs aclName getUser perm perm.toList

/-- The loop body of the older `check_perm`, which joins the ACL name
directly (no `/ACL` prefix) and checks for the given user. -/
def check_permLoop (fs : FileSystem) (aclName user perm : String) : List Char → Res Unit
  | [] => .ok ()
  | c :: cs =>
      match (InternalGet fs (goPathJoin [aclName, c.toString, user]) fs.index fs.term).2 with
      | .error _ => .error ⟨.permissionDenied, perm⟩
      | .ok _ => check_permLoop fs aclName user perm cs

/-- The older `check_perm(acl, perm)`: the user is always
`getUserByCertSubj()`. -/
def check_perm (fs : FileSystem) (aclName perm : String) : Res Unit :=
  check_permLoop fs aclName getUserByCertSubj perm perm.toList

mutual

/-- `hasPerm(n, perm, recursive)`: check the node's ACL and, when recursive
and the node is a directory, every non-hidden child. -/
def hasPerm (fs : FileSystem) (n : Node) (perm : String) (recursive : Bool) : Res Unit :=
  match n with
  | .node d _ _ a _ _ _ _ _ _ ch =>
      match checkPerm fs a perm with
      | .error e => .error e
      | .ok _ =>
          if d && recursive then hasPermChildren fs ch perm recursive
          else .ok ()

/-- The loop of `hasPerm` over a directory's children (its `n.List()`),
skipping hidden nodes. -/
def hasPermChildren (fs : FileSystem) (l : List (String × Node)) (perm : String)
    (recursive : Bool) : Res Unit :=
  match l with
  | [] => .ok ()
  | (_, c) :: rest =>
      if c.isHidden then hasPermChildren fs rest perm recursive
      else
        match hasPerm fs c perm recursive with
        | .error e => .error e
        | .ok _ => hasPermChildren fs rest perm recursive

end

/-- The loop of `hasPermOnParent`: follow the children maps along the
components; a missing segment triggers the permission check against the
node reached so far (the last existing ancestor); if every segment is found
the loop falls through and the call succeeds without any check. -/
def hasPermOnParentLoop (fs : FileSystem) (cur : Node) (perm : String) : List String → Res Unit
  | [] => .ok ()
  | c :: cs =>
      match cur.getChild c with
      | some child => hasPermOnParentLoop fs child perm cs
      | none => checkPerm fs cur.acl perm

/-- `hasPermOnParent(nodePath, perm)`: iterate over
`strings.Split(nodePath, "/")` from index 1 up to (excluding) the last —
the components of the parent directory path. -/
def hasPermOnParent (fs : FileSystem) (nodePath perm : String) : Res Unit :=
  hasPermOnParentLoop fs fs.root perm (comps nodePath).dropLast

/-! ### Directory listings for Get -/

/-- Insert a pair into a key-sorted list (the comparison of the
`KeyValuePair` sort interface: lexicographic on the key). -/
def insertPair (p : KVPair) : List KVPair → List KVPair
  | [] => [p]
  | q :: rest => if p.key < q.key then p :: q :: rest else q :: insertPair p rest

/-- Sort a listing lexicographically by key (`sort.Sort` on the pairs). -/
def sortPairs : List KVPair → List KVPair
  | [] => []
  | p :: rest => insertPair p (sortPairs rest)

mutual

/-- Modelled from the spec: `Node.Pair(recursive, sorted)` of the missing
`node.go` (§4.2).  A file yields `(key, value)`; a directory yields its
directory flag and, only when recursive, its listing — hidden children
omitted, sorted by name when `sorted`. -/
def nodePair (recursive sorted : Bool) (n : Node) : KVPair :=
  match n with
  | .node d p v _ _ _ _ _ _ _ ch =>
      if d then
        .mk p "" true
          (if recursive then
            (if sorted then sortPairs (pairList recursive sorted ch)
             else pairList recursive sorted ch)
           else [])
      else .mk p v false []

/-- The listing of a children map: skip hidden nodes, take each child's
`Pair`. -/
def pairList (recursive sorted : Bool) : List (String × Node) → List KVPair
  | [] => []
  | (_, c) :: rest =>
      if c.isHidden then pairList recursive sorted rest
      else nodePair recursive sorted c :: pairList recursive sorted rest

end

/-! ### The public operations (`file_system.go`) -/

/-- `Get(nodePath, recursive, sorted, index, term)`: resolve the cleaned
path (recording index and term), check `r` permission — recursively for a
recursive get — and build a read event: the value for a file, the
(hidden-filtered, optionally sorted) listing for a directory. -/
def Get (fs : FileSystem) (nodePath : String) (recursive sorted : Bool)
    (index term : Nat) : FileSystem × Res Event :=
  let p := cleanOp nodePath
  let (fs1, r) := InternalGet fs p index term
  match r with
  | .error e => (fs1, .error e)
  | .ok n =>
      match hasPerm fs1 n "r" recursive with
      | .error e => (fs1, .error e)
      | .ok _ =>
          let e0 := newEvent .get p index term
          if n.isDir then
            let pairs := pairList recursive sorted n.children
            (fs1, .ok { e0 with
              dir := true,
              kvpairs := if sorted then sortPairs pairs else pairs })
          else (fs1, .ok { e0 with value := n.value })

/-- The walk of `InternalCreate` with the `checkDir` walk function, fused
with the final `d.Add(n)` (the Go version mutates the tree in place through
pointers; here the rebuilt tree is threaded out).  `checkDir` returns an
existing child unconditionally and otherwise creates a permanent directory
carrying the parent's ACL and the FileSystem's current (Index, Term). -/
def walkCheckDir (ix tm : Nat) (k : Node → Res Node) : Node → List String → Res Node
  | curr, [] => k curr
  | curr, c :: cs =>
      if c = "" then k curr
      else
        match curr.getChild c with
        | some sub =>
            match walkCheckDir ix tm k sub cs with
            | .error e => .error e
            | .ok sub' => .ok (curr.setChild c sub')
        | none =>
            let nd := newDir (join2 curr.path c) ix tm curr.acl .permanent
            match walkCheckDir ix tm k nd cs with
            | .error e => .error e
            | .ok nd' => .ok (curr.setChild c nd')

/-- `InternalCreate(nodePath, value, expireTime, index, term)`: walk the
parent directory path with `checkDir` (creating missing directories), build
the new node — a file exactly when the value is non-empty — from the final
directory's ACL and the FileSystem's (Index, Term), add it, and arm an
Expirer when the expire time is not Permanent.  The source walks the
components of `path.Split(nodePath)`'s directory part, i.e. the components
of `nodePath` minus the final name followed by the empty component that
stops the walk; the index/term arguments are unused — the source reads
`fs.Index`/`fs.Term` throughout. -/
def InternalCreate (fs : FileSystem) (nodePath v : String) (expireTime : ETime)
    (_index _term : Nat) : FileSystem × Res Event :=
  let k : Node → Res Node := fun d =>
    nodeAdd d
      (if v ≠ "" then newFile nodePath v fs.index fs.term d.acl expireTime
       else newDir nodePath fs.index fs.term d.acl expireTime)
  match walkCheckDir fs.index fs.term k fs.root ((comps nodePath).dropLast ++ [""]) with
  | .error e => (fs, .error e)
  | .ok root1 =>
      let root2 := if expireTime ≠ .permanent then modifyAt root1 (comps nodePath) Node.incExpirers
                   else root1
      let e0 := newEvent .create nodePath fs.index fs.term
      let e1 := if v ≠ "" then { e0 with value := v } else { e0 with dir := true }
      let e2 := if expireTime ≠ .permanent then { e1 with expiration := some expireTime } else e1
      ({ fs with root := root2 }, .ok e2)

/-- `Create(nodePath, value, expireTime, index, term)`: check `w` on the
closest existing ancestor of the cleaned path, fail `ENodeExists` when the
path already resolves, pass the walk's `ENotDir` through, and otherwise
`InternalCreate`. -/
def Create (fs : FileSystem) (nodePath v : String) (expireTime : ETime)
    (index term : Nat) : FileSystem × Res Event :=
  let p := cleanOp nodePath
  match hasPermOnParent fs p "w" with
  | .error e => (fs, .error e)
  | .ok _ =>
      let (fs1, r) := InternalGet fs p index term
      match r with
      | .ok _ => (fs1, .error ⟨.nodeExist, p⟩)
      | .error err =>
          if err.errorCode = .notDir then (fs1, .error err)
          else InternalCreate fs1 p v expireTime index term

/-- `CreateDir` is `Create` with the empty value. -/
def CreateDir (fs : FileSystem) (nodePath : String) (expireTime : ETime)
    (index term : Nat) : FileSystem × Res Event :=
  Create fs nodePath "" expireTime index term

/-- The TTL section of `Update`, applied to the target node: cancel one
Expirer when both the current and the new expire time are non-Permanent,
then, when the new expire time is non-Permanent, record it and arm a fresh
Expirer. -/
def updateTTLNode (expireTime : ETime) (n : Node) : Node :=
  let n1 := if n.expireTime ≠ .permanent ∧ expireTime ≠ .permanent then n.decExpirers else n
  if expireTime ≠ .permanent then (n1.setExpireTime expireTime).incExpirers else n1

/-- `Update(nodePath, value, expireTime, index, term)`: resolve the cleaned
path, check `w` on the target; a directory admits no value (`ENotFile` on a
non-empty one), a file is written (the event records the previous value and,
when non-empty, the new one); then the TTL section runs on the target. -/
def Update (fs : FileSystem) (nodePath v : String) (expireTime : ETime)
    (index term : Nat) : FileSystem × Res Event :=
  let p := cleanOp nodePath
  let (fs1, r) := InternalGet fs p index term
  match r with
  | .error e => (fs1, .error e)
  | .ok n =>
      match hasPerm fs1 n "w" false with
      | .error e => (fs1, .error e)
      | .ok _ =>
          let e0 := newEvent .update p fs1.index fs1.term
          if n.isDir then
            if v ≠ "" then (fs1, .error ⟨.notFile, p⟩)
            else
              let e1 := if expireTime ≠ .permanent then { e0 with expiration := some expireTime } else e0
              ({ fs1 with root := modifyAt fs1.root (comps p) (updateTTLNode expireTime) }, .ok e1)
          else
            let e1 := { e0 with prevValue := n.value, value := if v ≠ "" then v else "" }
            let e2 := if expireTime ≠ .permanent then { e1 with expiration := some expireTime } else e1
            let root1 := modifyAt fs1.root (comps p)
              (fun m => updateTTLNode expireTime (nodeWrite m v index term))
            ({ fs1 with root := root1 }, .ok e2)

/-- `TestAndSet(nodePath, prevValue, prevIndex, value, expireTime, index,
term)`: resolve the cleaned path, check `rw` on the target, reject
directories (`ENotFile`); the swap happens when the stored value equals
`prevValue` or the stored modified index equals `prevIndex`, else
`EcodeTestFailed` (the spec's `ECompareFailed`) with the
`[prevValue/value] [prevIndex/modifiedIndex]` diagnostic.  The expire time
argument is unused by the source. -/
def TestAndSet (fs : FileSystem) (nodePath prevValue : String) (prevIndex : Nat)
    (v : String) (_expireTime : ETime) (index term : Nat) : FileSystem × Res Event :=
  let p := cleanOp nodePath
  let (fs1, r) := InternalGet fs p index term
  match r with
  | .error e => (fs1, .error e)
  | .ok f =>
      match hasPerm fs1 f "rw" false with
      | .error e => (fs1, .error e)
      | .ok _ =>
          if f.isDir then (fs1, .error ⟨.notFile, p⟩)
          else if f.value = prevValue ∨ f.modifiedIndex = prevIndex then
            let e := { newEvent .testAndSet p index term with
              prevValue := f.value, value := v }
            let root1 := modifyAt fs1.root (comps p) (fun m => nodeWrite m v index term)
            ({ fs1 with root := root1 }, .ok e)
          else
            (fs1, .error ⟨.testFailed,
              "[" ++ prevValue ++ "/" ++ f.value ++ "] [" ++ toString prevIndex ++ "/"
                ++ toString f.modifiedIndex ++ "]"⟩)

/-- `Delete(nodePath, recursive, index, term)`: resolve the cleaned path,
run `hasPermOnParent` with `w`, check `w` recursively on the target when
`recursive`, then remove the node (`Node.Remove`). -/
def Delete (fs : FileSystem) (nodePath : String) (recursive : Bool)
    (index term : Nat) : FileSystem × Res Event :=
  let p := cleanOp nodePath
  let (fs1, r) := InternalGet fs p index term
  match r with
  | .error e => (fs1, .error e)
  | .ok n =>
      match hasPermOnParent fs1 p "w" with
      | .error e => (fs1, .error e)
      | .ok _ =>
          match (if recursive then hasPerm fs1 n "w" recursive else .ok ()) with
          | .error e => (fs1, .error e)
          | .ok _ =>
              let e := { newEvent .delete p index term with
                dir := n.isDir, prevValue := if n.isDir then "" else n.value }
              match nodeRemove fs1.root (comps p) n recursive with
              | .error e2 => (fs1, .error e2)
              | .ok root1 => ({ fs1 with root := root1 }, .ok e)

/-- `New()`: a FileSystem whose root carries the `admin_aclname` ACL, with
read, write and create grants for the `admin` user installed through
`InternalCreate`; `nil` (here `none`) if any of those creates fails. -/
def New : Option FileSystem :=
  let fs : FileSystem :=
    { root := (newDir "/" 0 0 "" .permanent).setAcl "admin_aclname", index := 0, term := 0 }
  match InternalCreate fs "/ACL/admin_aclname/r/admin" "1" .permanent 1 1 with
  | (fs, .ok _) =>
      match InternalCreate fs "/ACL/admin_aclname/w/admin" "1" .permanent 1 1 with
      | (fs, .ok _) =>
          match InternalCreate fs "/ACL/admin_aclname/c/admin" "1" .permanent 1 1 with
          | (fs, .ok _) => some fs
          | _ => none
      | _ => none
  | _ => none

/-! ### Operation dispatch (for stating state-evolution claims) -/

/-- One request of the public API, minus its (index, term) pair. -/
inductive Op where
  | opGet (p : String) (recursive sorted : Bool)
  | opCreate (p v : String) (expireTime : ETime)
  | opUpdate (p v : String) (expireTime : ETime)
  | opTestAndSet (p prevValue : String) (prevIndex : Nat) (v : String) (expireTime : ETime)
  | opDelete (p : String) (recursive : Bool)

/-- Apply one operation, supplying its (index, term). -/
def applyOp (fs : FileSystem) : Op → Nat → Nat → FileSystem × Res Event
  | .opGet p r s, i, t => Get fs p r s i t
  | .opCreate p v e, i, t => Create fs p v e i t
  | .opUpdate p v e, i, t => Update fs p v e i t
  | .opTestAndSet p pv pi v e, i, t => TestAndSet fs p pv pi v e i t
  | .opDelete p r, i, t => Delete fs p r i t

/-- An operation as issued by an authenticated external caller.  The source
derives the acting user inside `checkPerm` from the constant `getUser()`
hook; the caller's identity reaches no code path, which this wrapper makes
explicit. -/
def applyOpOnBehalf (caller : String) (fs : FileSystem) (op : Op) (index term : Nat) :
    FileSystem × Res Event :=
  let _ := caller
  applyOp fs op index term

/-- The permission check as performed for an authenticated external caller:
`checkPerm` consults only the constant `getUser()`. -/
def checkPermOnBehalf (caller : String) (fs : FileSystem) (aclName perm : String) : Res Unit :=
  let _ := caller
  checkPerm fs aclName perm

/-! ### Basic simp lemmas about node accessors -/

@[simp] theorem Node.isDir_node (d : Bool) (p v a : String) (ci ct mi mt : Nat)
    (e : ETime) (x : Nat) (ch : List (String × Node)) :
    (Node.node d p v a ci ct mi mt e x ch).isDir = d := rfl

@[simp] theorem Node.path_node (d : Bool) (p v a : String) (ci ct mi mt : Nat)
    (e : ETime) (x : Nat) (ch : List (String × Node)) :
    (Node.node d p v a ci ct mi mt e x ch).path = p := rfl

@[simp] theorem Node.value_node (d : Bool) (p v a : String) (ci ct mi mt : Nat)
    (e : ETime) (x : Nat) (ch : List (String × Node)) :
    (Node.node d p v a ci ct mi mt e x ch).value = v := rfl

@[simp] theorem Node.acl_node (d : Bool) (p v a : String) (ci ct mi mt : Nat)
    (e : ETime) (x : Nat) (ch : List (String × Node)) :
    (Node.node d p v a ci ct mi mt e x ch).acl = a := rfl

@[simp] theorem Node.createdIndex_node (d : Bool) (p v a : String) (ci ct mi mt : Nat)
    (e : ETime) (x : Nat) (ch : List (String × Node)) :
    (Node.node d p v a ci ct mi mt e x ch).createdIndex = ci := rfl

@[simp] theorem Node.createdTerm_node (d : Bool) (p v a : String) (ci ct mi mt : Nat)
    (e : ETime) (x : Nat) (ch : List (String × Node)) :
    (Node.node d p v a ci ct mi mt e x ch).createdTerm = ct := rfl

@[simp] theorem Node.modifiedIndex_node (d : Bool) (p v a : String) (ci ct mi mt : Nat)
    (e : ETime) (x : Nat) (ch : List (String × Node)) :
    (Node.node d p v a ci ct mi mt e x ch).modifiedIndex = mi := rfl

@[simp] theorem Node.modifiedTerm_node (d : Bool) (p v a : String) (ci ct mi mt : Nat)
    (e : ETime) (x : Nat) (ch : List (String × Node)) :
    (Node.node d p v a ci ct mi mt e x ch).modifiedTerm = mt := rfl

@[simp] theorem Node.expireTime_node (d : Bool) (p v a : String) (ci ct mi mt : Nat)
    (e : ETime) (x : Nat) (ch : List (String × Node)) :
    (Node.node d p v a ci ct mi mt e x ch).expireTime = e := rfl

@[simp] theorem Node.expirers_node (d : Bool) (p v a : String) (ci ct mi mt : Nat)
    (e : ETime) (x : Nat) (ch : List (String × Node)) :
    (Node.node d p v a ci ct mi mt e x ch).expirers = x := rfl

@[simp] theorem Node.children_node (d : Bool) (p v a : String) (ci ct mi mt : Nat)
    (e : ETime) (x : Nat) (ch : List (String × Node)) :
    (Node.node d p v a ci ct mi mt e x ch).children = ch := rfl

/-- Every node is its constructor applied to its fields. -/
theorem Node.eta (n : Node) :
    n = Node.node n.isDir n.path n.value n.acl n.createdIndex n.createdTerm
      n.modifiedIndex n.modifiedTerm n.expireTime n.expirers n.children := by
  cases n; rfl

@[simp] theorem Node.isDir_setChild (n : Node) (c : String) (m : Node) :
    (n.setChild c m).isDir = n.isDir := by cases n; rfl

@[simp] theorem Node.acl_setChild (n : Node) (c : String) (m : Node) :
    (n.setChild c m).acl = n.acl := by cases n; rfl

@[simp] theorem Node.value_setChild (n : Node) (c : String) (m : Node) :
    (n.setChild c m).value = n.value := by cases n; rfl

@[simp] theorem Node.expireTime_setChild (n : Node) (c : String) (m : Node) :
    (n.setChild c m).expireTime = n.expireTime := by cases n; rfl

@[simp] theorem Node.expirers_setChild (n : Node) (c : String) (m : Node) :
    (n.setChild c m).expirers = n.expirers := by cases n; rfl

@[simp] theorem Node.createdIndex_setChild (n : Node) (c : String) (m : Node) :
    (n.setChild c m).createdIndex = n.createdIndex := by cases n; rfl

@[simp] theorem Node.createdTerm_setChild (n : Node) (c : String) (m : Node) :
    (n.setChild c m).createdTerm = n.createdTerm := by cases n; rfl

@[simp] theorem Node.modifiedIndex_setChild (n : Node) (c : String) (m : Node) :
    (n.setChild c m).modifiedIndex = n.modifiedIndex := by cases n; rfl

@[simp] theorem Node.modifiedTerm_setChild (n : Node) (c : String) (m : Node) :
    (n.setChild c m).modifiedTerm = n.modifiedTerm := by cases n; rfl

@[simp] theorem Node.path_setChild (n : Node) (c : String) (m : Node) :
    (n.setChild c m).path = n.path := by cases n; rfl

theorem lookupChild_setChildList_self (l : List (String × Node)) (c : String) (m : Node) :
    lookupChild (setChildList l c m) c = some m := by
  induction l with
  | nil => simp [setChildList, lookupChild]
  | cons kv rest ih =>
      obtain ⟨k, v⟩ := kv
      by_cases h : k = c
      · simp [setChildList, lookupChild, h]
      · simp [setChildList, lookupChild, h, ih]

theorem lookupChild_setChildList_ne (l : List (String × Node)) (c c' : String) (m : Node)
    (h : c ≠ c') : lookupChild (setChildList l c m) c' = lookupChild l c' := by
  induction l with
  | nil => simp [setChildList, lookupChild, h]
  | cons kv rest ih =>
      obtain ⟨k, v⟩ := kv
      by_cases hk : k = c
      · subst hk
        simp [setChildList, lookupChild, h, ih]
      · simp [setChildList, lookupChild, hk, ih]

@[simp] theorem Node.getChild_setChild_self (n : Node) (c : String) (m : Node) :
    (n.setChild c m).getChild c = some m := by
  cases n
  simp [Node.getChild, Node.setChild, lookupChild_setChildList_self]

theorem Node.getChild_setChild_ne (n : Node) (c c' : String) (m : Node) (h : c ≠ c') :
    (n.setChild c m).getChild c' = n.getChild c' := by
  cases n
  simp [Node.getChild, Node.setChild, lookupChild_setChildList_ne _ _ _ _ h]

/-! ### Walk lemmas -/

theorem nodeAt_append (n : Node) (xs ys : List String) :
    nodeAt n (xs ++ ys) = (nodeAt n xs).bind (fun m => nodeAt m ys) := by
  induction xs generalizing n with
  | nil => simp [nodeAt]
  | cons c cs ih =>
      simp only [List.cons_append, nodeAt]
      cases n.getChild c with
      | none => simp
      | some m => simpa using ih m

/-- A successful `InternalGet` walk pins the node found at the components
(no empty component may occur, as is the case for every cleaned path). -/
theorem walkAux_ok_nodeAt (cs : List String) (root n : Node)
    (hne : ¬ "" ∈ cs) (h : walkAux getWalkFunc root cs = .ok n) :
    nodeAt root cs = some n := by
  induction cs generalizing root with
  | nil =>
      simp [walkAux] at h
      simp [nodeAt, h]
  | cons c rest ih =>
      have hc : ¬ c = "" := by
        intro hc
        exact hne (by simp [hc])
      rw [walkAux, if_neg hc] at h
      rw [nodeAt]
      cases hw : getWalkFunc root c with
      | error e => rw [hw] at h; cases h
      | ok m =>
          rw [hw] at h
          have hm : root.getChild c = some m := by
            unfold getWalkFunc at hw
            by_cases hd : root.isDir
            · simp only [hd, Bool.not_true, Bool.false_eq_true, if_false] at hw
              cases hg : root.getChild c with
              | none => rw [hg] at hw; cases hw
              | some k => rw [hg] at hw; cases hw; rfl
            · simp only [Bool.not_eq_true] at hd
              simp [hd] at hw
          rw [hm]
          exact ih m (fun hx => hne (by simp [hx])) h

/-- A walk only inspects the directory bit and the children maps of the
nodes strictly before its last component, so modifying the node at the end
of a resolvable chain leaves the chain resolvable and yields the modified
node. -/
theorem nodeAt_modifyAt (cs : List String) (root n : Node) (f : Node → Node)
    (hne : ¬ "" ∈ cs) (h : nodeAt root cs = some n) :
    nodeAt (modifyAt root cs f) cs = some (f n) := by
  induction cs generalizing root with
  | nil =>
      simp [nodeAt] at h
      simp [nodeAt, modifyAt, h]
  | cons c rest ih =>
      have hc : ¬ c = "" := by
        intro hc
        exact hne (by simp [hc])
      rw [nodeAt] at h
      cases hg : root.getChild c with
      | none => rw [hg] at h; cases h
      | some sub =>
          rw [hg] at h
          rw [modifyAt, if_neg hc, hg, nodeAt, Node.getChild_setChild_self]
          exact ih sub (fun hx => hne (by simp [hx])) h

/-! ### Permission-layer lemmas -/

/-- The only error `checkPerm` produces is `EPermissionDenied` carrying the
requested permission string. -/
theorem checkPermLoop_error (fs : FileSystem) (aclName user perm : String)
    (cs : List Char) (e : EtcdError) (h : checkPermLoop fs aclName user perm cs = .error e) :
    e = ⟨.permissionDenied, perm⟩ := by
  induction cs with
  | nil => rw [checkPermLoop] at h; cases h
  | cons c rest ih =>
      rw [checkPermLoop] at h
      cases hg : (InternalGet fs (goPathJoin ["/ACL", aclName, c.toString, user]) fs.index fs.term).2 with
      | error e' => rw [hg] at h; cases h; rfl
      | ok m => rw [hg] at h; exact ih h

theorem checkPerm_error (fs : FileSystem) (aclName perm : String) (e : EtcdError)
    (h : checkPerm fs aclName perm = .error e) : e = ⟨.permissionDenied, perm⟩ :=
  checkPermLoop_error fs aclName getUser perm perm.toList e h

mutual

/-- The only error `hasPerm` produces is `EPermissionDenied` carrying the
requested permission string. -/
theorem hasPerm_error (fs : FileSystem) (n : Node) (perm : String) (recursive : Bool)
    (e : EtcdError) (h : hasPerm fs n perm recursive = .error e) :
    e = ⟨.permissionDenied, perm⟩ := by
  cases n with
  | node d p v a ci ct mi mt et x ch =>
      rw [hasPerm] at h
      cases hc : checkPerm fs a perm with
      | error e' =>
          rw [hc] at h
          cases h
          exact checkPerm_error fs a perm _ hc
      | ok u =>
          rw [hc] at h
          by_cases hd : (d && recursive) = true
          · rw [if_pos hd] at h
            exact hasPermChildren_error fs ch perm recursive e h
          · rw [if_neg hd] at h; cases h

theorem hasPermChildren_error (fs : FileSystem) (l : List (String × Node)) (perm : String)
    (recursive : Bool) (e : EtcdError) (h : hasPermChildren fs l perm recursive = .error e) :
    e = ⟨.permissionDenied, perm⟩ := by
  cases l with
  | nil => rw [hasPermChildren] at h; cases h
  | cons kv rest =>
      rw [hasPermChildren] at h
      by_cases hh : kv.2.isHidden = true
      · rw [if_pos hh] at h
        exact hasPermChildren_error fs rest perm recursive e h
      · rw [if_neg hh] at h
        cases hp : hasPerm fs kv.2 perm recursive with
        | error e' =>
            rw [hp] at h
            cases h
            exact hasPerm_error fs kv.2 perm recursive e hp
        | ok u =>
            rw [hp] at h
            exact hasPermChildren_error fs rest perm recursive e h

end

/-- The reference reading of the spec sentence for `hasPermOnParent`: walk
the components from the root; the node paused at when a segment is first
found missing is the last existing ancestor; `none` when every segment
exists. -/
def lastExistingAncestor (cur : Node) : List String → Option Node
  | [] => none
  | c :: cs =>
      match cur.getChild c with
      | some child => lastExistingAncestor child cs
      | none => some cur

theorem hasPermOnParentLoop_spec (fs : FileSystem) (perm : String) (cs : List String)
    (cur : Node) :
    hasPermOnParentLoop fs cur perm cs =
      match lastExistingAncestor cur cs with
      | none => .ok ()
      | some a => checkPerm fs a.acl perm := by
  induction cs generalizing cur with
  | nil => rfl
  | cons c rest ih =>
      rw [hasPermOnParentLoop, lastExistingAncestor]
      cases hg : cur.getChild c with
      | some child => exact ih child
      | none => rfl

/-- When the walk of `InternalGet` resolves a component chain, every child
lookup along any prefix of it succeeds, so the `hasPermOnParent` loop over
the chain minus its last component falls through without checking
anything. -/
theorem hasPermOnParentLoop_ok_of_walk (fs : FileSystem) (perm : String) (cs : List String)
    (root n : Node) (hne : ¬ "" ∈ cs) (h : walkAux getWalkFunc root cs = .ok n) :
    hasPermOnParentLoop fs root perm cs.dropLast = .ok () := by
  induction cs generalizing root with
  | nil => rfl
  | cons c rest ih =>
      have hc : ¬ c = "" := fun hx => hne (by simp [hx])
      rw [walkAux, if_neg hc] at h
      cases hw : getWalkFunc root c with
      | error e => rw [hw] at h; cases h
      | ok m =>
          rw [hw] at h
          have hm : root.getChild c = some m := by
            unfold getWalkFunc at hw
            by_cases hd : root.isDir
            · simp only [hd, Bool.not_true, Bool.false_eq_true, if_false] at hw
              cases hg : root.getChild c with
              | none => rw [hg] at hw; cases hw
              | some k => rw [hg] at hw; cases hw; rfl
            · simp only [Bool.not_eq_true] at hd
              simp [hd] at hw
          cases rest with
          | nil => rfl
          | cons c2 rest2 =>
              have hdl : (c :: c2 :: rest2).dropLast = c :: (c2 :: rest2).dropLast := rfl
              rw [hdl, hasPermOnParentLoop, hm]
              exact ih m (fun hx => hne (by simp [hx])) h

/-! ### List decomposition lemmas for the create walk -/

theorem getLastD_of_ne_nil {α : Type} (l : List α) (d1 d2 : α) (h : l ≠ []) :
    l.getLastD d1 = l.getLastD d2 := by
  rw [List.getLastD_eq_getLast?, List.getLastD_eq_getLast?, List.getLast?_eq_getLast l h]
  rfl

theorem dropLast_append_getLastD {α : Type} (l : List α) (d : α) (h : l ≠ []) :
    l.dropLast ++ [l.getLastD d] = l := by
  rw [List.getLastD_eq_getLast?, List.getLast?_eq_getLast l h]
  exact List.dropLast_append_getLast h

/-- For a non-root path, `path.Split`'s base name is the last walk
component. -/
theorem goSplitBase_eq_getLastD (p : String) (h : comps p ≠ []) :
    goSplitBase p = (comps p).getLastD "" := by
  unfold goSplitBase
  unfold comps at h ⊢
  generalize hl : splitSlash p = l at h ⊢
  cases l with
  | nil => simp at h
  | cons a l' =>
      simp only [List.drop_succ_cons, List.drop_zero] at h ⊢
      rw [List.getLastD_cons]
      exact getLastD_of_ne_nil l' a "" h

/-- A non-root path's components are its parent components followed by its
base name. -/
theorem comps_decomp (p : String) (h : comps p ≠ []) :
    (comps p).dropLast ++ [goSplitBase p] = comps p := by
  rw [goSplitBase_eq_getLastD p h]
  exact dropLast_append_getLastD _ _ h

theorem goSplitBase_mem (p : String) (h : comps p ≠ []) :
    goSplitBase p ∈ comps p := by
  rw [goSplitBase_eq_getLastD p h, List.getLastD_eq_getLast?, List.getLast?_eq_getLast _ h]
  exact List.getLast_mem h

/-! ### Error-code lemmas for Create -/

/-- `Node.Add` fails only with `ENotFile` (file receiver) or `ENodeExists`
(name taken). -/
theorem nodeAdd_error (d n : Node) (e : EtcdError) (h : nodeAdd d n = .error e) :
    e.errorCode = .notFile ∨ e.errorCode = .nodeExist := by
  unfold nodeAdd at h
  by_cases hd : d.isDir = true
  · simp only [hd, Bool.not_true, Bool.false_eq_true, if_false] at h
    cases hg : d.getChild (goSplitBase n.path) with
    | some m => rw [hg] at h; cases h; right; rfl
    | none => rw [hg] at h; cases h
  · simp only [Bool.not_eq_true] at hd
    simp only [hd, Bool.not_false, if_true] at h
    cases h
    left
    rfl

/-- The `checkDir` walk itself cannot fail; an error out of it comes from
the final continuation (the `Add`). -/
theorem walkCheckDir_error (ix tm : Nat) (k : Node → Res Node) (cs : List String)
    (curr : Node) (e : EtcdError) (h : walkCheckDir ix tm k curr cs = .error e) :
    ∃ d, k d = .error e := by
  induction cs generalizing curr with
  | nil => exact ⟨curr, h⟩
  | cons c rest ih =>
      rw [walkCheckDir] at h
      by_cases hc : c = ""
      · rw [if_pos hc] at h
        exact ⟨curr, h⟩
      · rw [if_neg hc] at h
        cases hg : curr.getChild c with
        | some sub =>
            rw [hg] at h
            simp only [] at h
            cases hw : walkCheckDir ix tm k sub rest with
            | error e2 => rw [hw] at h; cases h; exact ih sub hw
            | ok r => rw [hw] at h; cases h
        | none =>
            rw [hg] at h
            simp only [] at h
            cases hw : walkCheckDir ix tm k (newDir (join2 curr.path c) ix tm curr.acl .permanent) rest with
            | error e2 => rw [hw] at h; cases h; exact ih _ hw
            | ok r => rw [hw] at h; cases h

section ErrorCodeLemmas

attribute [local irreducible] cleanOp comps walkPath hasPerm hasPermOnParent checkPerm
  modifyAt nodeRemove goPathJoin goSplitBase newFile newDir nodeAdd

/-- `InternalCreate` fails only with the `Add` errors. -/
theorem internalCreate_error (fs : FileSystem) (p v : String) (eT : ETime) (i t : Nat)
    (e : EtcdError) (h : (InternalCreate fs p v eT i t).2 = .error e) :
    e.errorCode = .notFile ∨ e.errorCode = .nodeExist := by
  unfold InternalCreate at h
  simp only [] at h
  cases hwc : walkCheckDir fs.index fs.term
      (fun d => nodeAdd d
        (if v ≠ "" then newFile p v fs.index fs.term d.acl eT
         else newDir p fs.index fs.term d.acl eT))
      fs.root ((comps p).dropLast ++ [""]) with
  | error e2 =>
      rw [hwc] at h
      simp only [] at h
      cases h
      obtain ⟨d, hd⟩ := walkCheckDir_error _ _ _ _ _ _ hwc
      exact nodeAdd_error _ _ _ hd
  | ok root1 =>
      rw [hwc] at h
      simp only [] at h
      cases h

end ErrorCodeLemmas

section ErrorCodeLemmas2

attribute [local irreducible] cleanOp comps walkPath hasPerm hasPermOnParent checkPerm
  modifyAt nodeRemove goPathJoin goSplitBase newFile newDir nodeAdd walkCheckDir

/-- Once the ancestor permission check has passed, no error coming out of
`Create` is a permission denial. -/
theorem create_denied (fs : FileSystem) (p v : String) (eT : ETime) (i t : Nat)
    (e : EtcdError) (hok : hasPermOnParent fs (cleanOp p) "w" = .ok ())
    (h : (Create fs p v eT i t).2 = .error e) : e.errorCode ≠ .permissionDenied := by
  unfold Create InternalGet at h
  simp only [hok] at h
  cases hw : walkPath fs.root (cleanOp p) with
  | ok n =>
      rw [hw] at h
      simp only [] at h
      cases h
      simp
  | error err =>
      rw [hw] at h
      simp only [] at h
      by_cases hc : err.errorCode = Ecode.notDir
      · rw [if_pos hc] at h
        simp only [] at h
        cases h
        rw [hc]
        simp
      · rw [if_neg hc] at h
        rcases internalCreate_error _ _ _ _ _ _ _ h with h1 | h1 <;> rw [h1] <;> simp

end ErrorCodeLemmas2

/-! ### Success lemmas for the create walk -/

/-- A successful `Node.Add` inserts the child under its base name. -/
theorem nodeAdd_ok (d n d' : Node) (h : nodeAdd d n = .ok d') :
    d' = d.setChild (goSplitBase n.path) n := by
  unfold nodeAdd at h
  by_cases hd : d.isDir = true
  · simp only [hd, Bool.not_true, Bool.false_eq_true, if_false] at h
    cases hg : d.getChild (goSplitBase n.path) with
    | some m => rw [hg] at h; cases h
    | none => rw [hg] at h; cases h; rfl
  · simp only [Bool.not_eq_true] at hd
    simp only [hd, Bool.not_false, if_true] at h
    cases h

/-- When the `checkDir` walk over the parent components (ended by the empty
component of the split directory string) succeeds, the continuation ran on
some final directory and its result sits at the parent components in the
returned tree. -/
theorem walkCheckDir_nodeAt (ix tm : Nat) (k : Node → Res Node) (pc : List String)
    (curr curr' : Node) (hne : ¬ "" ∈ pc)
    (h : walkCheckDir ix tm k curr (pc ++ [""]) = .ok curr') :
    ∃ d d', k d = .ok d' ∧ nodeAt curr' pc = some d' := by
  induction pc generalizing curr curr' with
  | nil =>
      rw [List.nil_append, walkCheckDir, if_pos rfl] at h
      exact ⟨curr, curr', h, rfl⟩
  | cons c rest ih =>
      have hc : ¬ c = "" := fun hx => hne (by simp [hx])
      rw [List.cons_append, walkCheckDir, if_neg hc] at h
      cases hg : curr.getChild c with
      | some sub =>
          rw [hg] at h
          simp only [] at h
          cases hw : walkCheckDir ix tm k sub (rest ++ [""]) with
          | error e => rw [hw] at h; cases h
          | ok sub' =>
              rw [hw] at h
              cases h
              obtain ⟨d, d', hk, hn⟩ := ih sub sub' (fun hx => hne (by simp [hx])) hw
              refine ⟨d, d', hk, ?_⟩
              simp only [nodeAt, Node.getChild_setChild_self]
              exact hn
      | none =>
          rw [hg] at h
          simp only [] at h
          cases hw : walkCheckDir ix tm k (newDir (join2 curr.path c) ix tm curr.acl .permanent)
              (rest ++ [""]) with
          | error e => rw [hw] at h; cases h
          | ok nd' =>
              rw [hw] at h
              cases h
              obtain ⟨d, d', hk, hn⟩ := ih _ nd' (fun hx => hne (by simp [hx])) hw
              refine ⟨d, d', hk, ?_⟩
              simp only [nodeAt, Node.getChild_setChild_self]
              exact hn

@[simp] theorem isDir_incExpirers (m : Node) : m.incExpirers.isDir = m.isDir := by cases m; rfl

@[simp] theorem value_incExpirers (m : Node) : m.incExpirers.value = m.value := by cases m; rfl

/-! ### The auto-created-intermediates predicate (C5's spec reading)

The following three predicates transcribe the spec sentence "missing
intermediate directories are created permanent, with ACL inherited from
their parent and (created_index, created_term) equal to the operation's
(index, term)", to be compared against the tree `Create` produces:
`dirAgree` says a chain node kept its identity (kind, ACL, expire time,
creation stamp); `freshOK` says every node down a chain is a freshly
created permanent directory stamped `(ix, tm)` inheriting its parent's
ACL; `intermediatesOK` walks the parent components pairing the old tree
against the new one, requiring existing ancestors untouched and everything
below the first missing segment fresh. -/

def dirAgree (a b : Node) : Prop :=
  a.isDir = b.isDir ∧ a.acl = b.acl ∧ a.expireTime = b.expireTime ∧
  a.createdIndex = b.createdIndex ∧ a.createdTerm = b.createdTerm

theorem dirAgree_refl (a : Node) : dirAgree a a := ⟨rfl, rfl, rfl, rfl, rfl⟩

theorem dirAgree_trans {a b c : Node} (h1 : dirAgree a b) (h2 : dirAgree b c) : dirAgree a c :=
  ⟨h1.1.trans h2.1, h1.2.1.trans h2.2.1, h1.2.2.1.trans h2.2.2.1,
   h1.2.2.2.1.trans h2.2.2.2.1, h1.2.2.2.2.trans h2.2.2.2.2⟩

theorem dirAgree_setChild (a : Node) (c : String) (x : Node) : dirAgree a (a.setChild c x) := by
  refine ⟨?_, ?_, ?_, ?_, ?_⟩ <;> simp

theorem dirAgree_modifyAt (cs : List String) (b : Node) (f : Node → Node)
    (hnn : cs ≠ []) (hne : ¬ "" ∈ cs) : dirAgree b (modifyAt b cs f) := by
  cases cs with
  | nil => cases hnn rfl
  | cons c cs2 =>
      have hc : ¬ c = "" := fun hx => hne (by simp [hx])
      rw [modifyAt, if_neg hc]
      cases hg : b.getChild c with
      | some sub => exact dirAgree_setChild b c (modifyAt sub cs2 f)
      | none => exact dirAgree_refl b

def freshOK (ix tm : Nat) : Node → List String → Prop
  | _, [] => True
  | n, c :: cs =>
      match n.getChild c with
      | some m => m.isDir = true ∧ m.expireTime = .permanent ∧ m.createdIndex = ix ∧
          m.createdTerm = tm ∧ m.acl = n.acl ∧ freshOK ix tm m cs
      | none => False

def intermediatesOK (ix tm : Nat) : Node → Node → List String → Prop
  | _, _, [] => True
  | old, nw, c :: cs =>
      match old.getChild c, nw.getChild c with
      | some o, some m => dirAgree o m ∧ intermediatesOK ix tm o m cs
      | none, some m => m.isDir = true ∧ m.expireTime = .permanent ∧ m.createdIndex = ix ∧
          m.createdTerm = tm ∧ m.acl = nw.acl ∧ freshOK ix tm m cs
      | _, none => False

theorem freshOK_of_intermediatesOK_nil (ix tm : Nat) (old nw : Node) (cs : List String)
    (hch : old.children = []) (h : intermediatesOK ix tm old nw cs) : freshOK ix tm nw cs := by
  cases cs with
  | nil => exact trivial
  | cons c cs2 =>
      rw [intermediatesOK] at h
      rw [freshOK]
      have hgo : old.getChild c = none := by
        unfold Node.getChild
        rw [hch]
        rfl
      rw [hgo] at h
      cases hgn : nw.getChild c with
      | some m => rw [hgn] at h; exact h
      | none => rw [hgn] at h; exact h.elim

theorem modifyAt_getChild_self (b : Node) (c : String) (cs : List String) (f : Node → Node)
    (hc : ¬ c = "") (m : Node) (hg : b.getChild c = some m) :
    (modifyAt b (c :: cs) f).getChild c = some (modifyAt m cs f) := by
  rw [modifyAt, if_neg hc, hg]
  simp only []
  exact Node.getChild_setChild_self b c (modifyAt m cs f)

/-- Arming the created node's Expirer (a modification strictly below the
parent components) does not disturb the freshness of the created chain. -/
theorem freshOK_modifyAt (ix tm : Nat) (f : Node → Node) :
    ∀ (pc rest : List String) (m : Node), rest ≠ [] → ¬ "" ∈ pc → ¬ "" ∈ rest →
      freshOK ix tm m pc → freshOK ix tm (modifyAt m (pc ++ rest) f) pc := by
  intro pc
  induction pc with
  | nil => intro rest m _ _ _ _; exact trivial
  | cons c pc2 ih =>
      intro rest m hrnn hne hrne h
      have hc : ¬ c = "" := fun hx => hne (by simp [hx])
      have hne2 : ¬ "" ∈ pc2 := fun hx => hne (by simp [hx])
      rw [freshOK] at h
      cases hg : m.getChild c with
      | none => rw [hg] at h; exact h.elim
      | some m2 =>
          rw [hg] at h
          have hconc : ¬ (pc2 ++ rest) = [] := by
            intro hx
            rcases List.append_eq_nil.mp hx with ⟨-, h2⟩
            exact hrnn h2
          have hmemc : ¬ "" ∈ (pc2 ++ rest) := by
            intro hx
            rcases List.mem_append.mp hx with h2 | h2
            · exact hne2 h2
            · exact hrne h2
          have hagree : dirAgree m2 (modifyAt m2 (pc2 ++ rest) f) :=
            dirAgree_modifyAt _ _ _ hconc hmemc
          have hagree2 : dirAgree m (modifyAt m ((c :: pc2) ++ rest) f) := by
            apply dirAgree_modifyAt
            · simp
            · intro hx
              rcases List.mem_cons.mp hx with h3 | h3
              · exact hc h3.symm
              · exact hmemc h3
          rw [List.cons_append, freshOK,
            modifyAt_getChild_self m c (pc2 ++ rest) f hc m2 hg]
          obtain ⟨h1, h2, h3, h4, h5, h6⟩ := h
          exact ⟨hagree.1 ▸ h1, hagree.2.2.1 ▸ h2, hagree.2.2.2.1 ▸ h3,
            hagree.2.2.2.2 ▸ h4, by rw [← hagree.2.1, h5]; exact hagree2.2.1,
            ih rest m2 hrnn hne2 hrne h6⟩

theorem intermediatesOK_modifyAt (ix tm : Nat) (f : Node → Node) :
    ∀ (pc rest : List String) (old nw : Node), rest ≠ [] → ¬ "" ∈ pc → ¬ "" ∈ rest →
      intermediatesOK ix tm old nw pc →
      intermediatesOK ix tm old (modifyAt nw (pc ++ rest) f) pc := by
  intro pc
  induction pc with
  | nil => intro rest old nw _ _ _ _; exact trivial
  | cons c pc2 ih =>
      intro rest old nw hrnn hne hrne h
      have hc : ¬ c = "" := fun hx => hne (by simp [hx])
      have hne2 : ¬ "" ∈ pc2 := fun hx => hne (by simp [hx])
      have hconc : ¬ (pc2 ++ rest) = [] := by
        intro hx
        rcases List.append_eq_nil.mp hx with ⟨-, h2⟩
        exact hrnn h2
      have hmemc : ¬ "" ∈ (pc2 ++ rest) := by
        intro hx
        rcases List.mem_append.mp hx with h2 | h2
        · exact hne2 h2
        · exact hrne h2
      rw [intermediatesOK] at h
      cases hgn : nw.getChild c with
      | none =>
          rw [hgn] at h
          cases hgo : old.getChild c with
          | some o => rw [hgo] at h; exact h.elim
          | none => rw [hgo] at h; exact h.elim
      | some m =>
          rw [hgn] at h
          have hagree2 : dirAgree nw (modifyAt nw ((c :: pc2) ++ rest) f) := by
            apply dirAgree_modifyAt
            · simp
            · intro hx
              rcases List.mem_cons.mp hx with h3 | h3
              · exact hc h3.symm
              · exact hmemc h3
          rw [List.cons_append, intermediatesOK,
            modifyAt_getChild_self nw c (pc2 ++ rest) f hc m hgn]
          cases hgo : old.getChild c with
          | some o =>
              rw [hgo] at h
              exact ⟨dirAgree_trans h.1 (dirAgree_modifyAt _ _ _ hconc hmemc),
                ih rest o m hrnn hne2 hrne h.2⟩
          | none =>
              rw [hgo] at h
              obtain ⟨h1, h2, h3, h4, h5, h6⟩ := h
              have hagree : dirAgree m (modifyAt m (pc2 ++ rest) f) :=
                dirAgree_modifyAt _ _ _ hconc hmemc
              exact ⟨hagree.1 ▸ h1, hagree.2.2.1 ▸ h2, hagree.2.2.2.1 ▸ h3,
                hagree.2.2.2.2 ▸ h4,
                by rw [← hagree.2.1, h5]; exact hagree2.2.1,
                freshOK_modifyAt ix tm f pc2 rest m hrnn hne2 hrne h6⟩

theorem newDir_children (p : String) (ci ct : Nat) (a : String) (e : ETime) :
    (newDir p ci ct a e).children = [] := rfl

/-- The `checkDir` walk leaves existing chain nodes intact (fields
untouched, children only extended along the walk) and fills the gap below
the first missing segment with fresh permanent directories stamped with the
FileSystem's (Index, Term) and inheriting their parent's ACL — provided the
continuation only extends its node's children, as `Add` does. -/
theorem wwcd_intermediates (ix tm : Nat) (k : Node → Res Node)
    (hk : ∀ d d', k d = .ok d' → dirAgree d d') :
    ∀ (pc : List String) (curr curr' : Node), ¬ "" ∈ pc →
      walkCheckDir ix tm k curr (pc ++ [""]) = .ok curr' →
      dirAgree curr curr' ∧ intermediatesOK ix tm curr curr' pc := by
  intro pc
  induction pc with
  | nil =>
      intro curr curr' _ h
      rw [List.nil_append, walkCheckDir, if_pos rfl] at h
      exact ⟨hk curr curr' h, trivial⟩
  | cons c pc2 ih =>
      intro curr curr' hne h
      have hc : ¬ c = "" := fun hx => hne (by simp [hx])
      have hne2 : ¬ "" ∈ pc2 := fun hx => hne (by simp [hx])
      rw [List.cons_append, walkCheckDir, if_neg hc] at h
      cases hg : curr.getChild c with
      | some sub =>
          rw [hg] at h
          simp only [] at h
          cases hw : walkCheckDir ix tm k sub (pc2 ++ [""]) with
          | error e => rw [hw] at h; cases h
          | ok sub' =>
              rw [hw] at h
              cases h
              obtain ⟨ha, hio⟩ := ih sub sub' hne2 hw
              refine ⟨dirAgree_setChild curr c sub', ?_⟩
              rw [intermediatesOK, hg, Node.getChild_setChild_self]
              exact ⟨ha, hio⟩
      | none =>
          rw [hg] at h
          simp only [] at h
          cases hw : walkCheckDir ix tm k (newDir (join2 curr.path c) ix tm curr.acl .permanent)
              (pc2 ++ [""]) with
          | error e => rw [hw] at h; cases h
          | ok nd' =>
              rw [hw] at h
              cases h
              obtain ⟨ha, hio⟩ := ih _ nd' hne2 hw
              refine ⟨dirAgree_setChild curr c nd', ?_⟩
              rw [intermediatesOK, hg, Node.getChild_setChild_self]
              refine ⟨?_, ?_, ?_, ?_, ?_, ?_⟩
              · rw [← ha.1]; rfl
              · rw [← ha.2.2.1]; rfl
              · rw [← ha.2.2.2.1]; rfl
              · rw [← ha.2.2.2.2]; rfl
              · rw [← ha.2.1]
                have h0 : (newDir (join2 curr.path c) ix tm curr.acl .permanent).acl =
                    curr.acl := rfl
                rw [h0]
                simp
              · exact freshOK_of_intermediatesOK_nil ix tm _ _ _
                  (newDir_children _ _ _ _ _) hio

/-! ### Node-level write/TTL lemmas -/

@[simp] theorem nodeWrite_node (d : Bool) (p v0 a : String) (ci ct mi mt : Nat)
    (e : ETime) (x : Nat) (ch : List (String × Node)) (v : String) (i t : Nat) :
    nodeWrite (Node.node d p v0 a ci ct mi mt e x ch) v i t =
      Node.node d p (if v ≠ "" then v else v0) a ci ct i t e x ch := rfl

@[simp] theorem expirers_nodeWrite (m : Node) (v : String) (i t : Nat) :
    (nodeWrite m v i t).expirers = m.expirers := by cases m; rfl

@[simp] theorem expireTime_nodeWrite (m : Node) (v : String) (i t : Nat) :
    (nodeWrite m v i t).expireTime = m.expireTime := by cases m; rfl

@[simp] theorem value_nodeWrite (m : Node) (v : String) (i t : Nat) :
    (nodeWrite m v i t).value = if v ≠ "" then v else m.value := by cases m; rfl

@[simp] theorem modifiedIndex_nodeWrite (m : Node) (v : String) (i t : Nat) :
    (nodeWrite m v i t).modifiedIndex = i := by cases m; rfl

@[simp] theorem modifiedTerm_nodeWrite (m : Node) (v : String) (i t : Nat) :
    (nodeWrite m v i t).modifiedTerm = t := by cases m; rfl

/-- Field form of the TTL section of Update: one Expirer cancelled only when
both the old and the new expire time are non-Permanent; a fresh one armed,
and the expire time recorded, exactly when the new expire time is
non-Permanent; everything else untouched. -/
theorem updateTTLNode_spec (eT : ETime) (m : Node) :
    (updateTTLNode eT m).expirers =
      (if m.expireTime ≠ .permanent ∧ eT ≠ .permanent then m.expirers - 1 else m.expirers) +
        (if eT ≠ .permanent then 1 else 0) ∧
    (updateTTLNode eT m).expireTime = (if eT ≠ .permanent then eT else m.expireTime) ∧
    (updateTTLNode eT m).value = m.value ∧
    (updateTTLNode eT m).isDir = m.isDir ∧
    (updateTTLNode eT m).acl = m.acl ∧
    (updateTTLNode eT m).children = m.children ∧
    (updateTTLNode eT m).modifiedIndex = m.modifiedIndex ∧
    (updateTTLNode eT m).modifiedTerm = m.modifiedTerm ∧
    (updateTTLNode eT m).createdIndex = m.createdIndex ∧
    (updateTTLNode eT m).createdTerm = m.createdTerm := by
  cases m with
  | node d p v0 a ci ct mi mt e x ch =>
      by_cases he : eT = ETime.permanent
      · subst he
        simp [updateTTLNode]
      · by_cases ho : e = ETime.permanent
        · subst ho
          simp [updateTTLNode, he, Node.incExpirers, Node.setExpireTime]
        · simp [updateTTLNode, he, ho, Node.incExpirers, Node.decExpirers, Node.setExpireTime]

/-! ### Concrete states

States reachable through the public API, used to instantiate the general
theorems and to exhibit counterexamples.  ACL fields are reassigned the way
the package's own tests do (`n.ACL = ...`). -/

/-- The fresh store of `New()` (whose setup cannot fail). -/
def fsNew : FileSystem :=
  New.getD { root := newDir "/" 0 0 "" .permanent, index := 0, term := 0 }

/-- Reassign the ACL name of the node at a component chain, as the
package's tests do with `n.ACL = ...`. -/
def setAclAt (fs : FileSystem) (cs : List String) (a : String) : FileSystem :=
  { fs with root := modifyAt fs.root cs (fun n => n.setAcl a) }

/-- `/foo` holding `bar`, created at (3, 1). -/
def fsFoo : FileSystem := (Create fsNew "/foo" "bar" .permanent 3 1).1

/-- `/tmp` holding `v` with a TTL, created at (2, 1): one Expirer armed. -/
def fsTmp : FileSystem := (Create fsNew "/tmp" "v" (.instant 100) 2 1).1

/-- An empty directory `/d`, created at (2, 1). -/
def fsDir : FileSystem := (CreateDir fsNew "/d" .permanent 2 1).1

/-- `/sample` an existing directory whose ACL names no grants at all. -/
def fsSample : FileSystem :=
  setAclAt (CreateDir fsNew "/sample" .permanent 1 1).1 ["sample"] "no_such_acl"

/-- `/dir/file` where the parent directory `/dir`'s ACL names no grants. -/
def fsDirFile : FileSystem :=
  setAclAt (Create fsNew "/dir/file" "x" .permanent 1 1).1 ["dir"] "no_such_acl"

/-- `/dir/file` where the target `/dir/file`'s own ACL names no grants. -/
def fsDirFile2 : FileSystem :=
  setAclAt (Create fsNew "/dir/file" "x" .permanent 1 1).1 ["dir", "file"] "no_such_acl"

/-- `/foo` a file whose ACL names no grants. -/
def fsDeny : FileSystem := setAclAt fsFoo ["foo"] "no_such_acl"

/-! ### State-evolution lemmas for the operations -/

section StateLemmas

attribute [local irreducible] cleanOp comps walkPath hasPerm hasPermOnParent checkPerm
  modifyAt nodeRemove goPathJoin goSplitBase walkCheckDir

/-- `Get` always hands back the state produced by its `InternalGet`: the
tree untouched, (Index, Term) set to the call's pair. -/
theorem get_state (fs : FileSystem) (nodePath : String) (recursive sorted : Bool)
    (index term : Nat) :
    (Get fs nodePath recursive sorted index term).1 =
      { root := fs.root, index := index, term := term } := by
  unfold Get InternalGet
  simp only []
  repeat' split
  all_goals rfl

theorem update_state (fs : FileSystem) (p v : String) (eT : ETime) (i t : Nat) :
    (Update fs p v eT i t).1.index = i ∧ (Update fs p v eT i t).1.term = t := by
  unfold Update InternalGet
  simp only []
  constructor <;> (repeat' split) <;> rfl

theorem tas_state (fs : FileSystem) (p pv : String) (pi : Nat) (v : String) (eT : ETime)
    (i t : Nat) :
    (TestAndSet fs p pv pi v eT i t).1.index = i ∧ (TestAndSet fs p pv pi v eT i t).1.term = t := by
  unfold TestAndSet InternalGet
  simp only []
  constructor <;> (repeat' split) <;> rfl

theorem delete_state (fs : FileSystem) (p : String) (r : Bool) (i t : Nat) :
    (Delete fs p r i t).1.index = i ∧ (Delete fs p r i t).1.term = t := by
  unfold Delete InternalGet
  simp only []
  constructor <;> (repeat' split) <;> rfl

theorem internalCreate_state (fs : FileSystem) (p v : String) (eT : ETime) (i t : Nat) :
    (InternalCreate fs p v eT i t).1.index = fs.index ∧
      (InternalCreate fs p v eT i t).1.term = fs.term := by
  unfold InternalCreate
  simp only []
  constructor <;> (repeat' split) <;> rfl

/-- `Create` either fails its ancestor permission check before touching
anything — the state is returned as it was — or runs `InternalGet` and ends
with (Index, Term) equal to the call's pair. -/
theorem create_state (fs : FileSystem) (p v : String) (eT : ETime) (i t : Nat) :
    (Create fs p v eT i t).1 = fs ∨
      ((Create fs p v eT i t).1.index = i ∧ (Create fs p v eT i t).1.term = t) := by
  unfold Create InternalGet
  simp only []
  cases hp : hasPermOnParent fs (cleanOp p) "w" with
  | error e => left; simp [hp]
  | ok u =>
      right
      simp only [hp]
      cases h : walkPath fs.root (cleanOp p) with
      | ok n => simp [h]
      | error err =>
          simp only [h]
          by_cases hc : err.errorCode = Ecode.notDir
          · simp [hc]
          · simp only [hc, if_false]
            have h2 := internalCreate_state { fs with index := i, term := t } (cleanOp p) v eT i t
            exact ⟨h2.1, h2.2⟩

end StateLemmas

section CreateReduction

attribute [local irreducible] cleanOp comps goSplitBase goPathJoin join2 splitSlash

/-- Every `Create` that returns an event took the `InternalCreate` path,
with (Index, Term) already set to the call's pair. -/
theorem create_ok_eq_internal (fs : FileSystem) (p v : String) (eT : ETime) (i t : Nat)
    (ev : Event) (hsucc : (Create fs p v eT i t).2 = .ok ev) :
    Create fs p v eT i t =
      InternalCreate { fs with index := i, term := t } (cleanOp p) v eT i t := by
  unfold Create InternalGet at hsucc ⊢
  cases hpp : hasPermOnParent fs (cleanOp p) "w" with
  | error e =>
      simp only [hpp] at hsucc
      cases hsucc
  | ok u =>
      simp only [hpp] at hsucc ⊢
      cases hw : walkPath fs.root (cleanOp p) with
      | ok n =>
          simp only [hw] at hsucc
          cases hsucc
      | error err =>
          simp only [hw] at hsucc ⊢
          by_cases hc : err.errorCode = Ecode.notDir
          · rw [if_pos hc] at hsucc
            simp only [] at hsucc
            cases hsucc
          · rw [if_neg hc] at hsucc ⊢

end CreateReduction

/-! ### C7 -/

section C7Section

attribute [local irreducible] cleanOp comps goSplitBase goPathJoin join2 splitSlash

/-- C7: `CreateDir` is `Create` with the empty value; a successful
`InternalCreate` (the create step every successful `Create` reduces to, as
the third clause states) puts at the path a directory node when the
supplied value is empty and otherwise a file node holding exactly that
value, and the returned Create event carries the directory flag or the
value accordingly. -/
theorem c7_create_kind :
    (∀ (fs : FileSystem) (nodePath : String) (eT : ETime) (i t : Nat),
        CreateDir fs nodePath eT i t = Create fs nodePath "" eT i t) ∧
    (∀ (fs : FileSystem) (p v : String) (eT : ETime) (i t : Nat) (ev : Event),
      ¬ "" ∈ comps p → comps p ≠ [] →
      (InternalCreate fs p v eT i t).2 = .ok ev →
      ∃ n', nodeAt (InternalCreate fs p v eT i t).1.root (comps p) = some n' ∧
        (v = "" → n'.isDir = true ∧ n'.value = "" ∧ ev.dir = true ∧ ev.value = "") ∧
        (v ≠ "" → n'.isDir = false ∧ n'.value = v ∧ ev.dir = false ∧ ev.value = v)) ∧
    (∀ (fs : FileSystem) (p v : String) (eT : ETime) (i t : Nat) (ev : Event),
      (Create fs p v eT i t).2 = .ok ev →
      Create fs p v eT i t =
        InternalCreate { fs with index := i, term := t } (cleanOp p) v eT i t) := by
  refine ⟨fun _ _ _ _ _ => rfl, ?_, ?_⟩
  · intro fs p v eT i t ev hne hnn hsucc
    have hnepc : ¬ "" ∈ (comps p).dropLast := fun hx => hne (List.dropLast_subset _ hx)
    unfold InternalCreate at hsucc ⊢
    simp only [] at hsucc ⊢
    cases hwc : walkCheckDir fs.index fs.term
        (fun d => nodeAdd d
          (if v ≠ "" then newFile p v fs.index fs.term d.acl eT
           else newDir p fs.index fs.term d.acl eT))
        fs.root ((comps p).dropLast ++ [""]) with
    | error e =>
        simp only [hwc] at hsucc
        cases hsucc
    | ok root1 =>
        simp only [hwc] at hsucc ⊢
        obtain ⟨d, d', hk, hnd⟩ := walkCheckDir_nodeAt _ _ _ _ _ _ hnepc hwc
        have hpath : (if v ≠ "" then newFile p v fs.index fs.term d.acl eT
            else newDir p fs.index fs.term d.acl eT).path = p := by
          by_cases hv : v = "" <;> simp [hv, newFile, newDir]
        have hd' : d' = d.setChild (goSplitBase p)
            (if v ≠ "" then newFile p v fs.index fs.term d.acl eT
             else newDir p fs.index fs.term d.acl eT) := by
          have h2 := nodeAdd_ok _ _ _ hk
          rwa [hpath] at h2
        have hn0 : nodeAt root1 (comps p) =
            some (if v ≠ "" then newFile p v fs.index fs.term d.acl eT
              else newDir p fs.index fs.term d.acl eT) := by
          rw [← comps_decomp p hnn, nodeAt_append, hnd]
          simp only [Option.some_bind]
          rw [hd']
          simp [nodeAt, Node.getChild_setChild_self]
        cases hsucc
        by_cases he : eT = ETime.permanent
        · subst he
          simp only [ne_eq, not_true_eq_false, if_false, reduceIte]
          refine ⟨_, hn0, ?_, ?_⟩
          · intro hv
            subst hv
            simp [newDir, newEvent]
          · intro hv
            simp [hv, newFile, newEvent]
        · simp only [ne_eq, he, not_false_iff, if_true]
          refine ⟨_, nodeAt_modifyAt _ _ _ _ hne hn0, ?_, ?_⟩
          · intro hv
            subst hv
            simp [newDir, newEvent]
          · intro hv
            simp [hv, newFile, newEvent]
  · intro fs p v eT i t ev hsucc
    exact create_ok_eq_internal fs p v eT i t ev hsucc

end C7Section

/-- C7 witness: the file clause at `/f1` with value `val` on the fresh
store. -/
theorem c7_witness :
    ∃ n', nodeAt (InternalCreate fsNew "/f1" "val" ETime.permanent 7 1).1.root
        (comps "/f1") = some n' ∧
      (("val" : String) = "" → n'.isDir = true ∧ n'.value = "" ∧
        ({ action := Action.create, key := "/f1", value := "val",
           index := 0, term := 0 } : Event).dir = true ∧
        ({ action := Action.create, key := "/f1", value := "val",
           index := 0, term := 0 } : Event).value = "") ∧
      (("val" : String) ≠ "" → n'.isDir = false ∧ n'.value = "val" ∧
        ({ action := Action.create, key := "/f1", value := "val",
           index := 0, term := 0 } : Event).dir = false ∧
        ({ action := Action.create, key := "/f1", value := "val",
           index := 0, term := 0 } : Event).value = "val") :=
  (c7_create_kind.2.1) fsNew "/f1" "val" ETime.permanent 7 1
    { action := Action.create, key := "/f1", value := "val", index := 0, term := 0 }
    (by decide) (by decide) (by rfl)

/-! ### C8 -/

/-- C8: a Get call — any path, flags, index and term — leaves every node of
the tree exactly as it was (so no value, children, ACL, expire time,
index/term metadata or armed Expirer of any node changes), and the only
FileSystem state that changes is (Index, Term), set to the call's pair by
`InternalGet` before the tree is read. -/
theorem c8_get_readonly (fs : FileSystem) (nodePath : String) (recursive sorted : Bool)
    (index term : Nat) :
    (Get fs nodePath recursive sorted index term).1 =
      { root := fs.root, index := index, term := term } :=
  get_state fs nodePath recursive sorted index term

/-! ### C9 -/

/-- C9 counterexample: (Index, Term) is not monotone under arbitrary
supplied pairs — the store overwrites it.  Applying `Get / 5 1` and then
`Get / 3 1` to the fresh store drops the stored Index from 5 back to 3. -/
theorem c9_counterexample :
    (applyOp fsNew (Op.opGet "/" false false) 5 1).1.index = 5 ∧
    (applyOp (applyOp fsNew (Op.opGet "/" false false) 5 1).1
        (Op.opGet "/" false false) 3 1).1.index = 3 ∧ (3 : Nat) < 5 := by
  refine ⟨by decide, by decide, by decide⟩

/-- C9 amended: every applied operation either overwrites the stored
(Index, Term) with the supplied pair or — only for a Create rejected by its
ancestor permission check — leaves the state untouched; hence the stored
pair is non-decreasing exactly when the replication layer supplies
non-decreasing pairs, as the spec assumes, and not for arbitrary pairs. -/
theorem c9_amended (fs : FileSystem) (op : Op) (i t : Nat) :
    (((applyOp fs op i t).1.index = i ∧ (applyOp fs op i t).1.term = t) ∨
      (applyOp fs op i t).1 = fs) ∧
    (fs.index ≤ i → fs.term ≤ t →
      fs.index ≤ (applyOp fs op i t).1.index ∧ fs.term ≤ (applyOp fs op i t).1.term) := by
  have h1 : ((applyOp fs op i t).1.index = i ∧ (applyOp fs op i t).1.term = t) ∨
      (applyOp fs op i t).1 = fs := by
    cases op with
    | opGet p r s =>
        left
        simp only [applyOp, get_state]
        trivial
    | opCreate p v e =>
        simp only [applyOp]
        rcases create_state fs p v e i t with h | h
        · right; exact h
        · left; exact h
    | opUpdate p v e =>
        left
        simp only [applyOp]
        exact update_state fs p v e i t
    | opTestAndSet p pv pi v e =>
        left
        simp only [applyOp]
        exact tas_state fs p pv pi v e i t
    | opDelete p r =>
        left
        simp only [applyOp]
        exact delete_state fs p r i t
  refine ⟨h1, fun hi ht => ?_⟩
  rcases h1 with ⟨h2, h3⟩ | h2
  · rw [h2, h3]; exact ⟨hi, ht⟩
  · rw [h2]; exact ⟨le_refl _, le_refl _⟩

/-- C9 witness: the amended theorem at the fresh store with supplied pair
(2, 1), whose hypotheses hold there. -/
theorem c9_witness :
    fsNew.index ≤ 2 ∧ fsNew.term ≤ 1 ∧
    fsNew.index ≤ (applyOp fsNew (Op.opGet "/" false false) 2 1).1.index ∧
    fsNew.term ≤ (applyOp fsNew (Op.opGet "/" false false) 2 1).1.term :=
  ⟨by decide, by decide,
    ((c9_amended fsNew (Op.opGet "/" false false) 2 1).2 (by decide) (by decide)).1,
    ((c9_amended fsNew (Op.opGet "/" false false) 2 1).2 (by decide) (by decide)).2⟩

/-! ### C1 -/

/-- C1 amended: on an existing file node (read/write permission granted),
the swap succeeds exactly when the stored value equals `prev_value` OR the
stored modified index equals `prev_index` — a plain disjunction with no
don't-care handling: an empty `prev_value` matches only an empty stored
value, a zero `prev_index` matches only a zero modified index, and when
both are supplied one match suffices.  On success the stored value is
written; on mismatch of both the node is unchanged and the call fails with
`EcodeTestFailed` (the spec's `ECompareFailed`) whose diagnostic carries the
`[requested/actual]` pairs of both value and index. -/
theorem c1_amended (fs : FileSystem) (nodePath pv : String) (pi : Nat) (v : String)
    (eT : ETime) (i t : Nat) (f : Node)
    (hget : walkPath fs.root (cleanOp nodePath) = .ok f)
    (hperm : hasPerm { fs with index := i, term := t } f "rw" false = .ok ())
    (hfile : f.isDir = false) :
    ((f.value = pv ∨ f.modifiedIndex = pi) →
      TestAndSet fs nodePath pv pi v eT i t =
        ({ root := modifyAt fs.root (comps (cleanOp nodePath)) (fun m => nodeWrite m v i t),
           index := i, term := t },
         .ok { action := .testAndSet, key := cleanOp nodePath, prevValue := f.value,
               value := v, index := i, term := t })) ∧
    ((f.value ≠ pv ∧ f.modifiedIndex ≠ pi) →
      TestAndSet fs nodePath pv pi v eT i t =
        ({ root := fs.root, index := i, term := t },
         .error ⟨.testFailed, "[" ++ pv ++ "/" ++ f.value ++ "] [" ++ toString pi ++ "/"
            ++ toString f.modifiedIndex ++ "]"⟩)) ∧
    (¬ "" ∈ comps (cleanOp nodePath) → (f.value = pv ∨ f.modifiedIndex = pi) →
      nodeAt (TestAndSet fs nodePath pv pi v eT i t).1.root (comps (cleanOp nodePath)) =
        some (nodeWrite f v i t)) := by
  have hbody : ∀ (hc : f.value = pv ∨ f.modifiedIndex = pi),
      TestAndSet fs nodePath pv pi v eT i t =
        ({ root := modifyAt fs.root (comps (cleanOp nodePath)) (fun m => nodeWrite m v i t),
           index := i, term := t },
         .ok { action := .testAndSet, key := cleanOp nodePath, prevValue := f.value,
               value := v, index := i, term := t }) := by
    intro hc
    unfold TestAndSet InternalGet
    simp only [hget, hperm, hfile, Bool.false_eq_true, if_false, if_pos hc]
    rfl
  refine ⟨hbody, ?_, ?_⟩
  · intro hc
    have hc' : ¬ (f.value = pv ∨ f.modifiedIndex = pi) := by
      rintro (h | h)
      · exact hc.1 h
      · exact hc.2 h
    unfold TestAndSet InternalGet
    simp only [hget, hperm, hfile, Bool.false_eq_true, if_false, if_neg hc']
  · intro hne hc
    rw [hbody hc]
    have hn : nodeAt fs.root (comps (cleanOp nodePath)) = some f :=
      walkAux_ok_nodeAt _ _ _ hne hget
    exact nodeAt_modifyAt _ _ _ _ hne hn

/-- C1 counterexample: in `fsFoo`, `/foo` stores `bar` with modified index 3.
A TestAndSet supplying both a prev value (`bar`, matching) and a non-zero
prev index (5, NOT matching the stored 3) must fail under the claim's
"both supplied, both must match" reading, but the code's disjunction makes
it succeed and overwrite the value. -/
theorem c1_counterexample :
    (nodeAt fsFoo.root ["foo"]).map Node.value = some "bar" ∧
    (nodeAt fsFoo.root ["foo"]).map Node.modifiedIndex = some 3 ∧
    resOk (TestAndSet fsFoo "/foo" "bar" 5 "car" ETime.permanent 4 1).2 = true ∧
    (nodeAt (TestAndSet fsFoo "/foo" "bar" 5 "car" ETime.permanent 4 1).1.root ["foo"]).map
        Node.value = some "car" := by
  refine ⟨by decide, by decide, by decide, by decide⟩

/-- C1 witness: the amended theorem applied in `fsFoo` with a matching prev
value and don't-care-style zero index, where the swap goes through. -/
theorem c1_witness :
    TestAndSet fsFoo "/foo" "bar" 0 "car" ETime.permanent 4 1 =
      ({ root := modifyAt fsFoo.root (comps (cleanOp "/foo")) (fun m => nodeWrite m "car" 4 1),
         index := 4, term := 1 },
       .ok { action := .testAndSet, key := cleanOp "/foo", prevValue := "bar",
             value := "car", index := 4, term := 1 }) :=
  (c1_amended fsFoo "/foo" "bar" 0 "car" ETime.permanent 4 1
      (Node.node false "/foo" "bar" "admin_aclname" 3 1 3 1 .permanent 0 [])
      (by rfl) (by rfl) (by rfl)).1 (Or.inl rfl)

/-! ### C2 -/

/-- C2 amended: `hasPermOnParent` walks the path from the root and, at the
first segment missing from the tree, checks the permission against the last
existing ancestor's ACL; but when every segment up to the direct parent
already exists it performs NO check at all and succeeds — the direct
parent's ACL is never consulted.  A failing check is always
`EPermissionDenied` (with the permission string as cause), `Create`
propagates it unchanged with the state untouched, and after a passing check
`Create` never fails with `EPermissionDenied`. -/
theorem c2_amended :
    (∀ (fs : FileSystem) (np perm : String),
      hasPermOnParent fs np perm =
        match lastExistingAncestor fs.root ((comps np).dropLast) with
        | none => .ok ()
        | some a => checkPerm fs a.acl perm) ∧
    (∀ (fs : FileSystem) (np perm : String) (e : EtcdError),
      hasPermOnParent fs np perm = .error e → e = ⟨.permissionDenied, perm⟩) ∧
    (∀ (fs : FileSystem) (p v : String) (eT : ETime) (i t : Nat) (e : EtcdError),
      hasPermOnParent fs (cleanOp p) "w" = .error e →
        Create fs p v eT i t = (fs, .error e)) ∧
    (∀ (fs : FileSystem) (p v : String) (eT : ETime) (i t : Nat) (e : EtcdError),
      hasPermOnParent fs (cleanOp p) "w" = .ok () →
        (Create fs p v eT i t).2 = .error e → e.errorCode ≠ .permissionDenied) := by
  have hspec : ∀ (fs : FileSystem) (np perm : String),
      hasPermOnParent fs np perm =
        match lastExistingAncestor fs.root ((comps np).dropLast) with
        | none => .ok ()
        | some a => checkPerm fs a.acl perm := by
    intro fs np perm
    exact hasPermOnParentLoop_spec fs perm (comps np).dropLast fs.root
  refine ⟨hspec, ?_, ?_, ?_⟩
  · intro fs np perm e h
    rw [hspec] at h
    cases hl : lastExistingAncestor fs.root ((comps np).dropLast) with
    | none => rw [hl] at h; cases h
    | some a =>
        rw [hl] at h
        exact checkPerm_error fs a.acl perm e h
  · intro fs p v eT i t e h
    unfold Create
    simp only [h]
  · intro fs p v eT i t e hok h
    exact create_denied fs p v eT i t e hok h

/-- C2 counterexample: in `fsSample` the direct parent `/sample` of
`/sample/gao` exists and its ACL (`no_such_acl`) denies everything — a
check against the direct parent's ACL would fail — yet `hasPermOnParent`
succeeds without checking and `Create /sample/gao` goes through. -/
theorem c2_counterexample :
    (nodeAt fsSample.root ["sample"]).map Node.acl = some "no_such_acl" ∧
    resOk (checkPerm fsSample "no_such_acl" "w") = false ∧
    resOk (hasPermOnParent fsSample (cleanOp "/sample/gao") "w") = true ∧
    resOk (Create fsSample "/sample/gao" "x" ETime.permanent 2 1).2 = true := by
  refine ⟨by decide, by decide, by decide, by decide⟩

/-- C2 witness: the error-propagation clause at a path whose second segment
is missing, where the check against the last existing ancestor `/sample`
fails and `Create` fails with `EPermissionDenied`. -/
theorem c2_witness :
    Create fsSample "/sample/miss/x" "v" ETime.permanent 2 1 =
      (fsSample, .error ⟨.permissionDenied, "w"⟩) :=
  (c2_amended.2.2.1) fsSample "/sample/miss/x" "v" ETime.permanent 2 1
    ⟨.permissionDenied, "w"⟩ (by rfl)

/-! ### C3 -/

/-- C3 amended: for a successful Update of an existing node, the armed
Expirer of the target is cancelled only when BOTH the old and the new
expire time are non-Permanent (not "regardless of the new expire_time"); a
fresh Expirer is armed, and the new expire time recorded, exactly when the
new expire time is non-Permanent; this preserves the invariant that the
node has exactly one armed Expirer iff its expire time is non-Permanent —
in particular an Update to Permanent on a TTL node keeps both the old
expire time and its armed Expirer. -/
theorem c3_amended (fs : FileSystem) (p v : String) (eT : ETime) (i t : Nat) (n : Node)
    (hget : walkPath fs.root (cleanOp p) = .ok n)
    (hperm : hasPerm { fs with index := i, term := t } n "w" false = .ok ())
    (hne : ¬ "" ∈ comps (cleanOp p))
    (hok : ¬ (n.isDir = true ∧ v ≠ "")) :
    ∃ n', nodeAt (Update fs p v eT i t).1.root (comps (cleanOp p)) = some n' ∧
      resOk (Update fs p v eT i t).2 = true ∧
      n'.expirers =
        (if n.expireTime ≠ .permanent ∧ eT ≠ .permanent then n.expirers - 1 else n.expirers) +
          (if eT ≠ .permanent then 1 else 0) ∧
      n'.expireTime = (if eT ≠ .permanent then eT else n.expireTime) ∧
      ((n.expirers = if n.expireTime ≠ .permanent then 1 else 0) →
        (n'.expirers = if n'.expireTime ≠ .permanent then 1 else 0)) := by
  have hnode : nodeAt fs.root (comps (cleanOp p)) = some n :=
    walkAux_ok_nodeAt _ _ _ hne hget
  have main : ∃ n', nodeAt (Update fs p v eT i t).1.root (comps (cleanOp p)) = some n' ∧
      resOk (Update fs p v eT i t).2 = true ∧
      n'.expirers =
        (if n.expireTime ≠ .permanent ∧ eT ≠ .permanent then n.expirers - 1 else n.expirers) +
          (if eT ≠ .permanent then 1 else 0) ∧
      n'.expireTime = (if eT ≠ .permanent then eT else n.expireTime) := by
    by_cases hd : n.isDir = true
    · have hv : v = "" := by
        by_contra hv
        exact hok ⟨hd, hv⟩
      subst hv
      have hv' : ¬ (("" : String) ≠ "") := by simp
      have hroot : (Update fs p "" eT i t).1.root =
          modifyAt fs.root (comps (cleanOp p)) (updateTTLNode eT) := by
        unfold Update InternalGet
        simp only [hget, hperm]
        rw [if_pos hd, if_neg hv']
      have hres : resOk (Update fs p "" eT i t).2 = true := by
        unfold Update InternalGet
        simp only [hget, hperm]
        rw [if_pos hd, if_neg hv']
        rfl
      refine ⟨updateTTLNode eT n, ?_, hres, (updateTTLNode_spec eT n).1,
        (updateTTLNode_spec eT n).2.1⟩
      rw [hroot]
      exact nodeAt_modifyAt _ _ _ _ hne hnode
    · have hroot : (Update fs p v eT i t).1.root =
          modifyAt fs.root (comps (cleanOp p))
            (fun m => updateTTLNode eT (nodeWrite m v i t)) := by
        unfold Update InternalGet
        simp only [hget, hperm]
        rw [if_neg hd]
      have hres : resOk (Update fs p v eT i t).2 = true := by
        unfold Update InternalGet
        simp only [hget, hperm]
        rw [if_neg hd]
        rfl
      refine ⟨updateTTLNode eT (nodeWrite n v i t), ?_, hres, ?_, ?_⟩
      · rw [hroot]
        exact nodeAt_modifyAt _ _ _ _ hne hnode
      · rw [(updateTTLNode_spec eT (nodeWrite n v i t)).1,
          expirers_nodeWrite, expireTime_nodeWrite]
      · rw [(updateTTLNode_spec eT (nodeWrite n v i t)).2.1, expireTime_nodeWrite]
  obtain ⟨n', h1, h2, h3, h4⟩ := main
  refine ⟨n', h1, h2, h3, h4, fun hinv => ?_⟩
  by_cases he : eT = ETime.permanent
  · have h3' : n'.expirers = n.expirers := by simpa [he] using h3
    have h4' : n'.expireTime = n.expireTime := by simpa [he] using h4
    rw [h3', h4']
    exact hinv
  · by_cases ho : n.expireTime = ETime.permanent
    · have h3' : n'.expirers = n.expirers + 1 := by simpa [ho, he] using h3
      have h4' : n'.expireTime = eT := by simpa [he] using h4
      have hz : n.expirers = 0 := by simpa [ho] using hinv
      rw [h3', h4', hz]
      simp [he]
    · have h3' : n'.expirers = n.expirers - 1 + 1 := by simpa [ho, he] using h3
      have h4' : n'.expireTime = eT := by simpa [he] using h4
      have h1' : n.expirers = 1 := by simpa [ho] using hinv
      rw [h3', h4', h1']
      simp [he]

/-- C3 counterexample: `/tmp` in `fsTmp` carries a TTL (`instant 100`) with
one Expirer armed.  Updating it with a Permanent expire time succeeds, yet
the Expirer remains armed and the old expire time remains recorded — the
claim's "the Expirer is cancelled regardless of the new expire_time" does
not hold on the code. -/
theorem c3_counterexample :
    (nodeAt fsTmp.root ["tmp"]).map Node.expirers = some 1 ∧
    (nodeAt fsTmp.root ["tmp"]).map Node.expireTime = some (ETime.instant 100) ∧
    resOk (Update fsTmp "/tmp" "" ETime.permanent 3 1).2 = true ∧
    (nodeAt (Update fsTmp "/tmp" "" ETime.permanent 3 1).1.root ["tmp"]).map Node.expirers =
      some 1 ∧
    (nodeAt (Update fsTmp "/tmp" "" ETime.permanent 3 1).1.root ["tmp"]).map Node.expireTime =
      some (ETime.instant 100) := by
  refine ⟨by decide, by decide, by decide, by decide, by decide⟩

/-- C3 witness: the amended theorem at `/tmp` with a fresh TTL — the old
Expirer is cancelled, a new one armed, and the invariant is preserved. -/
theorem c3_witness :
    ∃ n', nodeAt (Update fsTmp "/tmp" "" (ETime.instant 200) 4 1).1.root
        (comps (cleanOp "/tmp")) = some n' ∧
      resOk (Update fsTmp "/tmp" "" (ETime.instant 200) 4 1).2 = true ∧
      n'.expirers = 1 - 1 + 1 ∧
      n'.expireTime = ETime.instant 200 ∧
      ((1 : Nat) = 1 → (n'.expirers = if n'.expireTime ≠ ETime.permanent then 1 else 0)) :=
  c3_amended fsTmp "/tmp" "" (ETime.instant 200) 4 1
    (Node.node false "/tmp" "v" "admin_aclname" 2 1 2 1 (ETime.instant 100) 1 [])
    (by rfl) (by rfl) (by decide) (by decide)

/-! ### C4 -/

/-- C4 amended: for an existing target the parent permission check of
Delete is vacuous — the whole parent chain exists, so `hasPermOnParent`
falls through without consulting any ACL and never fails; hence
non-recursive deletes perform no permission check at all (a file is removed
whatever the ACLs say), and only recursive deletes are guarded: `w` is
required recursively on the target subtree, and when that check fails
Delete returns `EPermissionDenied` (cause `w`) with the tree left
unchanged. -/
theorem c4_amended :
    (∀ (fs : FileSystem) (p : String) (i t : Nat) (n : Node),
      walkPath fs.root (cleanOp p) = .ok n → ¬ "" ∈ comps (cleanOp p) →
        hasPermOnParent { fs with index := i, term := t } (cleanOp p) "w" = .ok ()) ∧
    (∀ (fs : FileSystem) (p : String) (i t : Nat) (n : Node) (e : EtcdError),
      walkPath fs.root (cleanOp p) = .ok n →
      hasPermOnParent { fs with index := i, term := t } (cleanOp p) "w" = .ok () →
      hasPerm { fs with index := i, term := t } n "w" true = .error e →
        Delete fs p true i t = ({ root := fs.root, index := i, term := t }, .error e) ∧
          e = ⟨.permissionDenied, "w"⟩) ∧
    (∀ (fs : FileSystem) (p : String) (i t : Nat) (n : Node),
      walkPath fs.root (cleanOp p) = .ok n → ¬ "" ∈ comps (cleanOp p) →
      n.isDir = false →
        resOk (Delete fs p false i t).2 = true ∧
        (Delete fs p false i t).1.root = removeChildAt fs.root (comps (cleanOp p))) := by
  refine ⟨?_, ?_, ?_⟩
  · intro fs p i t n hget hne
    unfold hasPermOnParent
    exact hasPermOnParentLoop_ok_of_walk _ _ _ _ _ hne hget
  · intro fs p i t n e hget hpp hperm
    constructor
    · unfold Delete InternalGet
      simp only [hget, hpp, if_true, hperm]
    · exact hasPerm_error _ _ _ _ _ hperm
  · intro fs p i t n hget hne hd
    have hpp : hasPermOnParent { fs with index := i, term := t } (cleanOp p) "w" = .ok () := by
      unfold hasPermOnParent
      exact hasPermOnParentLoop_ok_of_walk _ _ _ _ _ hne hget
    have hrem : nodeRemove fs.root (comps (cleanOp p)) n false =
        .ok (removeChildAt fs.root (comps (cleanOp p))) := by
      unfold nodeRemove
      rw [if_neg]
      simp [hd]
    constructor
    · unfold Delete InternalGet
      simp only [hget, hpp, Bool.false_eq_true, if_false, hrem]
      rfl
    · unfold Delete InternalGet
      simp only [hget, hpp, Bool.false_eq_true, if_false, hrem]

/-- C4 counterexample: in `fsDirFile` the parent `/dir` has an ACL that
denies write, yet the non-recursive Delete of `/dir/file` succeeds and
removes the node — Delete does not require write permission on the
parent. -/
theorem c4_counterexample :
    (nodeAt fsDirFile.root ["dir"]).map Node.acl = some "no_such_acl" ∧
    resOk (checkPerm fsDirFile "no_such_acl" "w") = false ∧
    resOk (Delete fsDirFile "/dir/file" false 2 1).2 = true ∧
    (nodeAt (Delete fsDirFile "/dir/file" false 2 1).1.root ["dir", "file"]).isNone = true := by
  refine ⟨by decide, by decide, by decide, by decide⟩

/-- C4 witness: the recursive clause at `/dir/file` whose own ACL denies
write — the recursive delete fails with `EPermissionDenied` and the tree is
unchanged. -/
theorem c4_witness :
    Delete fsDirFile2 "/dir/file" true 2 1 =
      ({ root := fsDirFile2.root, index := 2, term := 1 },
        .error ⟨.permissionDenied, "w"⟩) ∧
    (⟨.permissionDenied, "w"⟩ : EtcdError) = ⟨.permissionDenied, "w"⟩ :=
  (c4_amended.2.1) fsDirFile2 "/dir/file" 2 1
    (Node.node false "/dir/file" "x" "no_such_acl" 1 1 1 1 ETime.permanent 0 [])
    ⟨.permissionDenied, "w"⟩ (by rfl) (by rfl) (by rfl)

/-! ### C5 -/

section C5Section

attribute [local irreducible] cleanOp comps goSplitBase goPathJoin join2 splitSlash

/-- C5 amended: `Create` fails with `ENodeExists` whenever the full path
already resolves (the permission check is then vacuous, so this clause is
unconditional); when the ancestor permission check passes and the walk
meets a file, it fails with that walk's `ENotDir` (without the permission
proviso, an `EPermissionDenied` can preempt it — see the counterexample);
and a successful `Create` leaves every existing ancestor's kind, ACL,
expire time and creation stamp untouched while every missing intermediate
is a fresh permanent directory whose ACL is inherited from its parent and
whose (created_index, created_term) equal the operation's (index, term)
(`intermediatesOK`). -/
theorem c5_create (fs : FileSystem) (p v : String) (eT : ETime) (i t : Nat) :
    (∀ n : Node, walkPath fs.root (cleanOp p) = .ok n → ¬ "" ∈ comps (cleanOp p) →
      Create fs p v eT i t =
        ({ root := fs.root, index := i, term := t }, .error ⟨.nodeExist, cleanOp p⟩)) ∧
    (∀ err : EtcdError, hasPermOnParent fs (cleanOp p) "w" = .ok () →
      walkPath fs.root (cleanOp p) = .error err → err.errorCode = .notDir →
      Create fs p v eT i t = ({ root := fs.root, index := i, term := t }, .error err)) ∧
    (∀ ev : Event, (Create fs p v eT i t).2 = .ok ev →
      ¬ "" ∈ comps (cleanOp p) → comps (cleanOp p) ≠ [] →
      intermediatesOK i t fs.root (Create fs p v eT i t).1.root
        ((comps (cleanOp p)).dropLast)) := by
  refine ⟨?_, ?_, ?_⟩
  · intro n hget hne
    have hpp : hasPermOnParent fs (cleanOp p) "w" = .ok () := by
      unfold hasPermOnParent
      exact hasPermOnParentLoop_ok_of_walk _ _ _ _ _ hne hget
    unfold Create InternalGet
    simp only [hpp, hget]
  · intro err hpp hget hcode
    unfold Create InternalGet
    simp only [hpp, hget]
    rw [if_pos hcode]
  · intro ev hsucc hne hnn
    have hnepc : ¬ "" ∈ (comps (cleanOp p)).dropLast :=
      fun hx => hne (List.dropLast_subset _ hx)
    have hbase : ¬ "" ∈ [goSplitBase (cleanOp p)] := by
      intro hx
      rcases List.mem_singleton.mp hx with h2
      exact hne (h2 ▸ goSplitBase_mem (cleanOp p) hnn)
    have heq := create_ok_eq_internal fs p v eT i t ev hsucc
    rw [heq] at hsucc ⊢
    unfold InternalCreate at hsucc ⊢
    simp only [] at hsucc ⊢
    cases hwc : walkCheckDir i t
        (fun d => nodeAdd d
          (if v ≠ "" then newFile (cleanOp p) v i t d.acl eT
           else newDir (cleanOp p) i t d.acl eT))
        fs.root ((comps (cleanOp p)).dropLast ++ [""]) with
    | error e =>
        simp only [hwc] at hsucc
        cases hsucc
    | ok root1 =>
        simp only [hwc] at hsucc ⊢
        have hk : ∀ d d', nodeAdd d
            (if v ≠ "" then newFile (cleanOp p) v i t d.acl eT
             else newDir (cleanOp p) i t d.acl eT) = .ok d' → dirAgree d d' := by
          intro d d' hadd
          rw [nodeAdd_ok _ _ _ hadd]
          exact dirAgree_setChild _ _ _
        have hio := (wwcd_intermediates i t _ hk _ fs.root root1 hnepc hwc).2
        by_cases he : eT = ETime.permanent
        · subst he
          simp only [ne_eq, not_true_eq_false, if_false, reduceIte]
          exact hio
        · simp only [ne_eq, he, not_false_iff, if_true]
          have hfull : (comps (cleanOp p)).dropLast ++ [goSplitBase (cleanOp p)] =
              comps (cleanOp p) := comps_decomp _ hnn
          nth_rewrite 1 [← hfull]
          exact intermediatesOK_modifyAt i t Node.incExpirers
            ((comps (cleanOp p)).dropLast) [goSplitBase (cleanOp p)] fs.root root1
            (by simp) hnepc hbase hio

end C5Section

/-- C5 counterexample: in `fsDeny` the intermediate segment `/foo` of
`/foo/b/c` exists and is a file, but the Create fails with
`EPermissionDenied` (the ancestor check walks into the file, finds `b`
missing and checks the file's all-denying ACL) rather than the claimed
`ENotDir`. -/
theorem c5_counterexample :
    (nodeAt fsDeny.root ["foo"]).map Node.isDir = some false ∧
    (Create fsDeny "/foo/b/c" "x" ETime.permanent 9 1).2 =
      .error ⟨.permissionDenied, "w"⟩ := by
  refine ⟨by decide, by rfl⟩

/-- C5 witness: the intermediates clause at `Create /a/b/c` on the fresh
store — `/a` and `/a/b` come out as permanent directories stamped (3, 1)
with the inherited ACL. -/
theorem c5_witness :
    intermediatesOK 3 1 fsNew.root
      (Create fsNew "/a/b/c" "x" ETime.permanent 3 1).1.root
      ((comps (cleanOp "/a/b/c")).dropLast) :=
  (c5_create fsNew "/a/b/c" "x" ETime.permanent 3 1).2.2
    { action := Action.create, key := "/a/b/c", value := "x", index := 3, term := 1 }
    (by rfl) (by decide) (by decide)

/-! ### C6 -/

/-- C6: for Update on an existing, write-permitted target: a directory
rejects a non-empty value with `ENotFile` (the tree untouched), and with an
empty value only its expire time (and Expirer) may change — value,
children, ACL and all index/term metadata are preserved; a file target gets
its value replaced by a non-empty supplied value and kept under an empty
one, and its modified index/term are always set to the operation's pair. -/
theorem c6_update_semantics (fs : FileSystem) (p v : String) (eT : ETime) (i t : Nat) (n : Node)
    (hget : walkPath fs.root (cleanOp p) = .ok n)
    (hperm : hasPerm { fs with index := i, term := t } n "w" false = .ok ())
    (hne : ¬ "" ∈ comps (cleanOp p)) :
    (n.isDir = true → v ≠ "" →
      Update fs p v eT i t =
        ({ root := fs.root, index := i, term := t }, .error ⟨.notFile, cleanOp p⟩)) ∧
    (n.isDir = true → v = "" →
      ∃ n', nodeAt (Update fs p v eT i t).1.root (comps (cleanOp p)) = some n' ∧
        resOk (Update fs p v eT i t).2 = true ∧
        n'.isDir = true ∧ n'.value = n.value ∧ n'.children = n.children ∧
        n'.acl = n.acl ∧ n'.modifiedIndex = n.modifiedIndex ∧
        n'.modifiedTerm = n.modifiedTerm ∧ n'.createdIndex = n.createdIndex ∧
        n'.createdTerm = n.createdTerm) ∧
    (n.isDir = false →
      ∃ n', nodeAt (Update fs p v eT i t).1.root (comps (cleanOp p)) = some n' ∧
        resOk (Update fs p v eT i t).2 = true ∧
        n'.value = (if v ≠ "" then v else n.value) ∧
        n'.modifiedIndex = i ∧ n'.modifiedTerm = t) := by
  have hnode : nodeAt fs.root (comps (cleanOp p)) = some n :=
    walkAux_ok_nodeAt _ _ _ hne hget
  refine ⟨?_, ?_, ?_⟩
  · intro hd hv
    unfold Update InternalGet
    simp only [hget, hperm]
    rw [if_pos hd, if_pos hv]
  · intro hd hv
    subst hv
    have hv' : ¬ (("" : String) ≠ "") := by simp
    have hroot : (Update fs p "" eT i t).1.root =
        modifyAt fs.root (comps (cleanOp p)) (updateTTLNode eT) := by
      unfold Update InternalGet
      simp only [hget, hperm]
      rw [if_pos hd, if_neg hv']
    have hres : resOk (Update fs p "" eT i t).2 = true := by
      unfold Update InternalGet
      simp only [hget, hperm]
      rw [if_pos hd, if_neg hv']
      rfl
    obtain ⟨-, -, hv2, hd2, ha2, hch2, hmi2, hmt2, hci2, hct2⟩ := updateTTLNode_spec eT n
    refine ⟨updateTTLNode eT n, ?_, hres, ?_, hv2, hch2, ha2, hmi2, hmt2, hci2, hct2⟩
    · rw [hroot]
      exact nodeAt_modifyAt _ _ _ _ hne hnode
    · rw [hd2]; exact hd
  · intro hd
    have hd' : ¬ n.isDir = true := by simp [hd]
    have hroot : (Update fs p v eT i t).1.root =
        modifyAt fs.root (comps (cleanOp p))
          (fun m => updateTTLNode eT (nodeWrite m v i t)) := by
      unfold Update InternalGet
      simp only [hget, hperm]
      rw [if_neg hd']
    have hres : resOk (Update fs p v eT i t).2 = true := by
      unfold Update InternalGet
      simp only [hget, hperm]
      rw [if_neg hd']
      rfl
    obtain ⟨-, -, hv2, -, -, -, hmi2, hmt2, -, -⟩ :=
      updateTTLNode_spec eT (nodeWrite n v i t)
    refine ⟨updateTTLNode eT (nodeWrite n v i t), ?_, hres, ?_, ?_, ?_⟩
    · rw [hroot]
      exact nodeAt_modifyAt _ _ _ _ hne hnode
    · rw [hv2, value_nodeWrite]
    · rw [hmi2, modifiedIndex_nodeWrite]
    · rw [hmt2, modifiedTerm_nodeWrite]

/-- C6 witness: the file case at `/foo`, replacing `bar` with `baz` and
stamping (5, 1). -/
theorem c6_witness :
    ∃ n', nodeAt (Update fsFoo "/foo" "baz" ETime.permanent 5 1).1.root
        (comps (cleanOp "/foo")) = some n' ∧
      resOk (Update fsFoo "/foo" "baz" ETime.permanent 5 1).2 = true ∧
      n'.value = (if ("baz" : String) ≠ "" then "baz" else "bar") ∧
      n'.modifiedIndex = 5 ∧ n'.modifiedTerm = 1 :=
  (c6_update_semantics fsFoo "/foo" "baz" ETime.permanent 5 1
      (Node.node false "/foo" "bar" "admin_aclname" 3 1 3 1 ETime.permanent 0 [])
      (by rfl) (by rfl) (by decide)).2.2 rfl

/-! ### C10 -/

/-- C10: every ACL check is performed on behalf of a fixed, hard-coded user:
`checkPerm` consults `getUser()`, which is unconditionally `admin` (the
older `check_perm` consults `getUserByCertSubj()`, unconditionally `test`),
so for any two external caller identities the permission outcome and every
operation's result coincide — the store's behaviour is independent of who
the caller is. -/
theorem c10_caller_independent :
    getUser = "admin" ∧ getUserByCertSubj = "test" ∧
    (∀ caller1 caller2 : String, ∀ fs : FileSystem, ∀ aclName perm : String,
      checkPermOnBehalf caller1 fs aclName perm = checkPermOnBehalf caller2 fs aclName perm) ∧
    (∀ caller1 caller2 : String, ∀ fs : FileSystem, ∀ op : Op, ∀ index term : Nat,
      applyOpOnBehalf caller1 fs op index term = applyOpOnBehalf caller2 fs op index term) :=
  ⟨rfl, rfl, fun _ _ _ _ _ => rfl, fun _ _ _ _ _ _ => rfl⟩

end EtcdFs
